import Mathlib

/-!
# oczeroexporter: an OpenCensus exporter that logs through zerolog

A shallow embedding of `oczeroexporter.go`.  The Go packages the exporter
uses (`zerolog`, `view`, `tag`, `trace`, `hex`, `time`, `regexp`) appear as
namespaces holding just the types and functions the exporter touches.

Conventions of the embedding
* a Go pointer that may be nil is an `Option`; dereferencing `none` is a
  run-time panic, which ends the call (records already written stay written).
  The receiver `e` and the argument `vd` of the two exported methods are the
  values pointed to: a call with a nil receiver or a nil argument is outside
  the embedding;
* a `*zerolog.Event` is nil when the level of its logger is disabled; every
  method of a nil event does nothing, `Msg` included;
* a live event is the ordered list of the fields appended to it so far;
  `Msg` hands the fields and the message to the sink, and the records a call
  writes are collected in emission order.  The fields a logger contributes
  itself (level, context, timestamp) are taken to be on the event when the
  factory returns it, also where zerolog adds them while `Msg` runs;
* an event factory is a Go closure and may keep state: it is given by what
  it returns at each call, the calls of `log()` being numbered through all
  calls of the exporter;
* a Go map is given by the entries in the order `range` visits them;
* `float64`, `int64`, `int32` values are only copied by the exporter; the
  one place where the value of a float matters is `Event.Interface`, which
  cannot marshal NaN and the infinities.
-/

namespace OcZeroExporter

/-! ## Scalars -/

/-- A `float64`, identified by its IEEE-754 bit pattern. -/
structure Float64 where
  bits : Nat
deriving DecidableEq, Repr

/-- The sign bit of the pattern. -/
def Float64.sign (f : Float64) : Nat := (f.bits / 9223372036854775808) % 2

/-- The eleven exponent bits of the pattern. -/
def Float64.exponent (f : Float64) : Nat := (f.bits / 4503599627370496) % 2048

/-- The fifty-two fraction bits of the pattern. -/
def Float64.fraction (f : Float64) : Nat := f.bits % 4503599627370496

/-- The values `encoding/json` refuses to marshal, NaN and the two
infinities (exponent bits all set), with the text
`strconv.FormatFloat(f, 'g', -1, 64)` gives them; `none` for every other
value. -/
def Float64.unsupported (f : Float64) : Option String :=
  if f.exponent = 2047 then
    if f.fraction ≠ 0 then some "NaN"
    else if f.sign = 0 then some "+Inf"
    else some "-Inf"
  else none

/-- A byte. -/
abbrev Byte := Fin 256

namespace time

/-- A `time.Duration`: a signed 64-bit count of nanoseconds. -/
abbrev Duration := Int

/-- The smallest `time.Duration`, `-1 << 63`. -/
def minDuration : Int := -9223372036854775808

/-- The largest `time.Duration`, `1<<63 - 1`. -/
def maxDuration : Int := 9223372036854775807

/-- A `time.Time`: an instant, as a count of nanoseconds on one time line. -/
structure Time where
  nanos : Int
deriving DecidableEq, Repr

/-- Go's `t.Sub(u)`: the duration `t-u`; when the difference does not fit a
`Duration` the maximum (or minimum) duration is returned. -/
def Time.Sub (t u : Time) : Duration :=
  let d : Int := t.nanos - u.nanos
  if d < minDuration then minDuration
  else if maxDuration < d then maxDuration
  else d

/-- Go's `t.After(u)`. -/
def Time.After (t u : Time) : Prop := u.nanos < t.nanos

instance (t u : Time) : Decidable (t.After u) :=
  inferInstanceAs (Decidable (u.nanos < t.nanos))

end time

/-! ## encoding/hex and the `reZero` pattern -/

namespace hex

/-- The digit table of `encoding/hex`. -/
def hextable : List Char := "0123456789abcdef".data

/-- The loop of `hex.Encode`: `hextable[v>>4]` then `hextable[v&0x0f]` for
every source byte `v`. -/
def Encode : List Byte → List Char
  | [] => []
  | v :: rest =>
    hextable.getD (v.val >>> 4) '0' :: hextable.getD (v.val &&& 0x0f) '0' :: Encode rest

/-- Go's `hex.EncodeToString`. -/
def EncodeToString (src : List Byte) : String := ⟨Encode src⟩

/-- The table lookup `reverseHexTable[c]` of `encoding/hex`, `none` standing
for the entries above `0x0f` (not a hexadecimal digit). -/
def fromHexChar (c : Char) : Option Nat :=
  if '0' ≤ c ∧ c ≤ '9' then some (c.toNat - '0'.toNat)
  else if 'a' ≤ c ∧ c ≤ 'f' then some (c.toNat - 'a'.toNat + 10)
  else if 'A' ≤ c ∧ c ≤ 'F' then some (c.toNat - 'A'.toNat + 10)
  else none

/-- The loop of `hex.Decode`: two characters give one byte `(a << 4) | b`;
`none` is `InvalidByteError` or, for a dangling last character, `ErrLength`. -/
def Decode : List Char → Option (List Byte)
  | [] => some []
  | [_] => none
  | p :: q :: rest =>
    match fromHexChar p, fromHexChar q with
    | some a, some b =>
      (Decode rest).map fun bs => Fin.ofNat ((a <<< 4) ||| b) :: bs
    | _, _ => none

/-- Go's `hex.DecodeString`. -/
def DecodeString (s : String) : Option (List Byte) := Decode s.data

/-- A character of the lowercase hexadecimal alphabet `0-9a-f`. -/
def isLowerHex (c : Char) : Bool := hextable.contains c

end hex

/-- The package variable `reZero = regexp.MustCompile("^0+$")` through its
only use, `reZero.MatchString`: the whole text is one or more `0`. -/
def reZero.MatchString (s : String) : Bool :=
  !s.data.isEmpty && s.data.all fun c => c == '0'

/-! ## zerolog events -/

namespace zerolog

/-- The value of a field a span attribute carries (`interface{}` holding a
`bool`, `string`, `int64` or `float64`). -/
inductive Any where
  | bool (b : Bool)
  | string (s : String)
  | int64 (i : Int)
  | float64 (f : Float64)
deriving DecidableEq, Repr

/-- The typed value of one field of a structured log record, one constructor
per `zerolog.Event` method the exporter calls. -/
inductive Value where
  | str (s : String)
  | time (t : time.Time)
  | float64 (f : Float64)
  | int64 (i : Int)
  | int32 (i : Int)
  | strs (ss : List String)
  | dur (d : time.Duration)
  | iface (v : Any)
deriving DecidableEq, Repr

/-- One `key: value` pair of a record. -/
structure Field where
  key : String
  value : Value
deriving DecidableEq, Repr

/-- A live `zerolog.Event`: the fields appended so far, oldest first.  An
event handed out by a logger may already hold fields (its level, the
logger's context, a timestamp). -/
structure Event where
  fields : List Field
deriving DecidableEq, Repr

/-- A `*zerolog.Event`: `none` is the nil pointer a logger returns for a
disabled level. -/
abbrev EventPtr := Option Event

/-- A record handed to the sink by `Msg`. -/
structure Record where
  fields : List Field
  message : String
deriving DecidableEq, Repr

/-- What `Event.Interface` stores for a value: the value itself when
`json.Marshal` accepts it, and for a float that it refuses the text of the
error, as a string. -/
def AppendInterface (i : Any) : Value :=
  match i with
  | .float64 f =>
    match f.unsupported with
    | some text => .str ("marshaling error: json: unsupported value: " ++ text)
    | none => .iface i
  | _ => .iface i

/-- The method `Event.Str`; like every method, it returns a nil receiver
as it is. -/
def EventPtr.Str (l : EventPtr) (key val : String) : EventPtr :=
  match l with
  | none => none
  | some ev => some ⟨ev.fields ++ [⟨key, .str val⟩]⟩

/-- The method `Event.Time`. -/
def EventPtr.Time (l : EventPtr) (key : String) (t : time.Time) : EventPtr :=
  match l with
  | none => none
  | some ev => some ⟨ev.fields ++ [⟨key, .time t⟩]⟩

/-- The method `Event.Float64`. -/
def EventPtr.Float64 (l : EventPtr) (key : String) (f : OcZeroExporter.Float64) : EventPtr :=
  match l with
  | none => none
  | some ev => some ⟨ev.fields ++ [⟨key, .float64 f⟩]⟩

/-- The method `Event.Int64`. -/
def EventPtr.Int64 (l : EventPtr) (key : String) (i : Int) : EventPtr :=
  match l with
  | none => none
  | some ev => some ⟨ev.fields ++ [⟨key, .int64 i⟩]⟩

/-- The method `Event.Int32`. -/
def EventPtr.Int32 (l : EventPtr) (key : String) (i : Int) : EventPtr :=
  match l with
  | none => none
  | some ev => some ⟨ev.fields ++ [⟨key, .int32 i⟩]⟩

/-- The method `Event.Strs`. -/
def EventPtr.Strs (l : EventPtr) (key : String) (vals : List String) : EventPtr :=
  match l with
  | none => none
  | some ev => some ⟨ev.fields ++ [⟨key, .strs vals⟩]⟩

/-- The method `Event.Dur`. -/
def EventPtr.Dur (l : EventPtr) (key : String) (d : time.Duration) : EventPtr :=
  match l with
  | none => none
  | some ev => some ⟨ev.fields ++ [⟨key, .dur d⟩]⟩

/-- The method `Event.Interface`. -/
def EventPtr.Interface (l : EventPtr) (key : String) (i : Any) : EventPtr :=
  match l with
  | none => none
  | some ev => some ⟨ev.fields ++ [⟨key, AppendInterface i⟩]⟩

/-- The method `Event.Msg`: the record the sink receives, none for a nil
event. -/
def EventPtr.Msg (l : EventPtr) (msg : String) : Option Record :=
  match l with
  | none => none
  | some ev => some ⟨ev.fields, msg⟩

/-- A Go `func() *zerolog.Event`, such as the method value `logger.Debug`
or the function `log.Debug` of `zerolog/log`: the pointer its call returns
when `n` calls of `log()` came before. -/
abbrev EventFn := Nat → EventPtr

end zerolog

/-! ## OpenCensus data -/

namespace tag

/-- A `tag.Key`. -/
structure Key where
  name : String
deriving DecidableEq, Repr

/-- The method `Key.Name`. -/
def Key.Name (k : Key) : String := k.name

/-- A `tag.Tag`. -/
structure Tag where
  Key : Key
  Value : String
deriving DecidableEq, Repr

end tag

namespace view

/-- The fields of `view.DistributionData` that are scalars. -/
structure DistributionData where
  Count : Int
  Min : Float64
  Max : Float64
  Mean : Float64
  SumOfSquaredDev : Float64
deriving DecidableEq, Repr

/-- A `view.CountData`. -/
structure CountData where
  Value : Int
deriving DecidableEq, Repr

/-- A `view.SumData`. -/
structure SumData where
  Value : Float64
deriving DecidableEq, Repr

/-- A `view.LastValueData`. -/
structure LastValueData where
  Value : Float64
deriving DecidableEq, Repr

/-- A value of the interface type `view.AggregationData`, by dynamic type.
`unset` is the nil interface; the four known kinds hold a pointer, `none`
being a nil pointer of that type; `other` is any further dynamic type. -/
inductive AggregationData where
  | unset
  | distribution (v : Option DistributionData)
  | count (v : Option CountData)
  | sum (v : Option SumData)
  | lastValue (v : Option LastValueData)
  | other (kind : Nat)
deriving DecidableEq, Repr

/-- A `view.Row`. -/
structure Row where
  Tags : List tag.Tag
  Data : AggregationData
deriving DecidableEq, Repr

/-- The field of `view.View` the exporter reads. -/
structure View where
  Name : String
deriving DecidableEq, Repr

/-- A `view.Data`: one snapshot of a view.  `View` is a `*View` and `Rows`
a `[]*Row`: both the view and each row may be nil. -/
structure Data where
  View : Option View
  Start : time.Time
  End : time.Time
  Rows : List (Option Row)
deriving DecidableEq, Repr

end view

namespace trace

/-- A Go `map[string]interface{}` as `range` sees it: `none` is the nil map,
`some kvs` holds the entries in the order this run of the loop visits
them. -/
abbrev Attributes := Option (List (String × zerolog.Any))

/-- The entries a `range` over the map visits; none for a nil map. -/
def Attributes.range (m : Attributes) : List (String × zerolog.Any) :=
  m.getD []

/-- A `trace.TraceID`, `[16]byte`. -/
structure TraceID where
  bytes : List Byte
  size : bytes.length = 16
deriving DecidableEq, Repr

/-- A `trace.SpanID`, `[8]byte`. -/
structure SpanID where
  bytes : List Byte
  size : bytes.length = 8
deriving DecidableEq, Repr

/-- The identifiers of `trace.SpanContext`. -/
structure SpanContext where
  TraceID : TraceID
  SpanID : SpanID
deriving DecidableEq, Repr

/-- A `trace.Status`. -/
structure Status where
  Code : Int
  Message : String
deriving DecidableEq, Repr

/-- A `trace.Annotation`. -/
structure Annotation where
  Time : time.Time
  Message : String
  Attributes : Attributes
deriving DecidableEq, Repr

/-- A `trace.SpanData`. -/
structure SpanData where
  SpanContext : SpanContext
  ParentSpanID : SpanID
  Name : String
  StartTime : time.Time
  EndTime : time.Time
  Attributes : Attributes
  Annotations : List Annotation
  Status : Status
deriving DecidableEq, Repr

end trace

/-! ## The exporter -/

open zerolog

/-- The type `Exporter`: the optional event factory. -/
structure Exporter where
  eventFn : Option EventFn

/-- The constructor `New`. -/
def New (eventFn : Option EventFn) : Exporter := ⟨eventFn⟩

/-- The method `Exporter.log`, at the call of `log()` that `n` calls
precede.  `Debug` is the function `log.Debug` of `zerolog/log`: the debug
event of the process-wide default logger. -/
def Exporter.log (e : Exporter) (Debug : EventFn) (n : Nat) : EventPtr :=
  match e.eventFn with
  | none => Debug n
  | some f => f n

/-- The result of a piece of code that may panic. -/
inductive Result (α : Type) where
  | panic
  | ok (val : α)
deriving DecidableEq, Repr

/-- What a call leaves behind: the records written to the sink, in order,
whether the call ended in a panic instead of returning, and the number of
calls of `log()` made so far, those of this call included. -/
structure Outcome where
  records : List Record
  panicked : Bool
  calls : Nat
deriving DecidableEq, Repr

/-- The type switch of `ExportView` on `row.Data`; the panic is the
nil-pointer dereference of `v.Min` or `v.Value` when the pointer of the
matched case is nil (the argument is evaluated whether or not the event is
nil). -/
def ExportView.switch (l : EventPtr) : view.AggregationData → Result EventPtr
  | .distribution (some v) =>
    .ok (((l.Float64 "distributionMin" v.Min).Float64 "distributionMax" v.Max).Float64
      "distributionMean" v.Mean)
  | .distribution none => .panic
  | .count (some v) => .ok (l.Int64 "count" v.Value)
  | .count none => .panic
  | .sum (some v) => .ok (l.Float64 "sum" v.Value)
  | .sum none => .panic
  | .lastValue (some v) => .ok (l.Float64 "last" v.Value)
  | .lastValue none => .panic
  | .unset => .ok l
  | .other _ => .ok l

/-- The inner loop of `ExportView` over `row.Tags`, `tags` being the slice
built so far. -/
def ExportView.tags : List tag.Tag → List String → List String
  | [], tags => tags
  | tag :: rest, tags =>
    if tag.Value = "" then ExportView.tags rest tags
    else
      let t := tag.Key.Name ++ ":" ++ tag.Value
      ExportView.tags rest (tags ++ [t])

/-- The body of the loop of `ExportView` for one row, `n` calls of `log()`
having been made before: what `l.Msg("metric")` hands to the sink, or a panic
on the way there, at `vd.View.Name` for a nil view, at `row.Data` for a nil
row, or in the type switch. -/
def ExportView.body (e : Exporter) (Debug : EventFn) (vd : view.Data) (n : Nat)
    (row : Option view.Row) : Result (Option Record) :=
  let l := e.log Debug n
  match vd.View with
  | none => .panic
  | some v =>
    let l := l.Str "name" v.Name
    let l := l.Time "end" vd.End
    match row with
    | none => .panic
    | some row =>
      match ExportView.switch l row.Data with
      | .panic => .panic
      | .ok l =>
        let tags := ExportView.tags row.Tags []
        let l := l.Strs "tags" tags
        .ok (l.Msg "metric")

/-- The loop of `ExportView` over the rows still to visit, `out` being the
records written so far and `n` the number of calls of `log()` made so far. -/
def ExportView.loop (e : Exporter) (Debug : EventFn) (vd : view.Data) :
    List (Option view.Row) → List Record → Nat → Outcome
  | [], out, n => ⟨out, false, n⟩
  | row :: rest, out, n =>
    match ExportView.body e Debug vd n row with
    | .panic => ⟨out, true, n + 1⟩
    | .ok none => ExportView.loop e Debug vd rest out (n + 1)
    | .ok (some r) => ExportView.loop e Debug vd rest (out ++ [r]) (n + 1)

/-- The method `Exporter.ExportView`, called when `n` calls of `log()`
have been made. -/
def ExportView (e : Exporter) (Debug : EventFn) (vd : view.Data) (n : Nat) : Outcome :=
  ExportView.loop e Debug vd vd.Rows [] n

/-- The loop of `ExportSpan` over the attributes of one annotation. -/
def ExportSpan.annotationFields (item : trace.Annotation) (l : EventPtr) : EventPtr :=
  item.Attributes.range.foldl
    (fun l kv => l.Interface ("annotations." ++ item.Message ++ "." ++ kv.1) kv.2) l

/-- The method `Exporter.ExportSpan`, called when `n` calls of `log()`
have been made. -/
def ExportSpan (e : Exporter) (Debug : EventFn) (vd : trace.SpanData) (n : Nat) : Outcome :=
  let traceID := hex.EncodeToString vd.SpanContext.TraceID.bytes
  let spanID := hex.EncodeToString vd.SpanContext.SpanID.bytes
  let parentSpanID := hex.EncodeToString vd.ParentSpanID.bytes
  let l := e.log Debug n
  let l := (l.Str "traceId" traceID).Str "spanId" spanID
  let l := if !reZero.MatchString parentSpanID then l.Str "parentSpanId" parentSpanID else l
  let l := (((l.Str "span" vd.Name).Str "statusMessage" vd.Status.Message).Int32
    "statusCode" vd.Status.Code).Dur "elapsed" (vd.EndTime.Sub vd.StartTime)
  let l := vd.Annotations.foldl (fun l item => ExportSpan.annotationFields item l) l
  let l := vd.Attributes.range.foldl (fun l kv => l.Interface ("attributes." ++ kv.1) kv.2) l
  ⟨(l.Msg "trace").toList, false, n + 1⟩

/-! ## Reading a record -/

/-- An event with more fields appended, a nil event staying nil: what a
chain of field methods does. -/
def zerolog.EventPtr.append (l : EventPtr) (fs : List Field) : EventPtr :=
  match l with
  | none => none
  | some ev => some ⟨ev.fields ++ fs⟩

/-- The fields of a record that were appended after the event came out of
the call of `log()` that `k` calls precede: what the exporter itself set. -/
def Exporter.fieldsSet (e : Exporter) (Debug : EventFn) (k : Nat) (r : Record) : List Field :=
  match e.log Debug k with
  | none => r.fields
  | some ev => r.fields.drop ev.fields.length

/-- The calls of `log()` numbered `n` to `n + k - 1` all return a live
event. -/
def Exporter.liveFor (e : Exporter) (Debug : EventFn) (n k : Nat) : Prop :=
  ∀ j, j < k → (e.log Debug (n + j)).isSome = true

instance (e : Exporter) (Debug : EventFn) (n k : Nat) : Decidable (e.liveFor Debug n k) :=
  inferInstanceAs (Decidable (∀ j, j < k → (e.log Debug (n + j)).isSome = true))

/-- The values of all fields of the list that are named `key`, in order. -/
def fieldValues (key : String) (fs : List Field) : List Value :=
  (fs.filter fun f => f.key == key).map fun f => f.value

/-- The value a reader that keeps the last of several fields of one name
sees under `key`, if any. -/
def lastFieldValue (key : String) (fs : List Field) : Option Value :=
  (fieldValues key fs).getLast?

/-- The names of the numeric fields `ExportView` can set. -/
def numericKeys : List String :=
  ["distributionMin", "distributionMax", "distributionMean", "count", "sum", "last"]

/-- The fields of the list named by one of `numericKeys`. -/
def numericFields (fs : List Field) : List Field :=
  fs.filter fun f => numericKeys.contains f.key

/-- The seven field names `ExportSpan` writes outside its loops. -/
def fixedNames : List String :=
  ["traceId", "spanId", "parentSpanId", "span", "statusMessage", "statusCode", "elapsed"]

/-- Go's `strings.HasPrefix(f.key, p)`. -/
def keyStartsWith (p : String) (f : Field) : Bool :=
  p.data.isPrefixOf f.key.data

/-- The value is one `json.Marshal` accepts: anything but a float that is
NaN or infinite. -/
def zerolog.Any.supported (v : Any) : Bool :=
  match v with
  | .float64 f => f.unsupported.isNone
  | _ => true

/-! ## Shapes of a snapshot -/

/-- The pointer held by the row data is not nil: a nil interface and an
unknown dynamic type count as populated, a nil pointer of a known kind does
not. -/
def view.AggregationData.populated : view.AggregationData → Bool
  | .distribution none => false
  | .count none => false
  | .sum none => false
  | .lastValue none => false
  | _ => true

/-- The row pointer is not nil and the row holds populated data. -/
def view.rowOk (row : Option view.Row) : Bool :=
  match row with
  | none => false
  | some r => r.Data.populated

/-- The snapshot has no nil pointer where `ExportView` dereferences one: the
view is not nil unless there is no row at all, no row is nil, and no row holds
a nil pointer of a known data kind. -/
def view.Data.wellFormed (vd : view.Data) : Prop :=
  (vd.Rows = [] ∨ vd.View.isSome = true) ∧ ∀ row ∈ vd.Rows, view.rowOk row = true

instance (vd : view.Data) : Decidable vd.wellFormed :=
  inferInstanceAs (Decidable
    ((vd.Rows = [] ∨ vd.View.isSome = true) ∧ ∀ row ∈ vd.Rows, view.rowOk row = true))

/-- The body of the loop panics on this row: the view is nil, the row is
nil, or the row holds a nil pointer of a known data kind. -/
def ExportView.panics (vd : view.Data) (row : Option view.Row) : Bool :=
  !vd.View.isSome || !view.rowOk row

/-- The text `ExportView` renders for one tag. -/
def tagText (t : tag.Tag) : String := t.Key.Name ++ ":" ++ t.Value

/-- The fields the type switch of `ExportView` appends for a row's data. -/
def ExportView.kindFields : view.AggregationData → List Field
  | .distribution (some v) =>
    [⟨"distributionMin", .float64 v.Min⟩, ⟨"distributionMax", .float64 v.Max⟩,
      ⟨"distributionMean", .float64 v.Mean⟩]
  | .count (some v) => [⟨"count", .int64 v.Value⟩]
  | .sum (some v) => [⟨"sum", .float64 v.Value⟩]
  | .lastValue (some v) => [⟨"last", .float64 v.Value⟩]
  | _ => []

/-- The fields the body of the loop of `ExportView` appends for one row. -/
def ExportView.rowFields (name : String) (endTime : time.Time) (row : view.Row) :
    List Field :=
  [⟨"name", .str name⟩, ⟨"end", .time endTime⟩] ++ ExportView.kindFields row.Data
    ++ [⟨"tags", .strs ((row.Tags.filter fun t => t.Value ≠ "").map tagText)⟩]

/-- The record the body of the loop hands to the sink for a row on which it
does not panic: none when the event of the call is nil. -/
def ExportView.record (e : Exporter) (Debug : EventFn) (vd : view.Data) (n : Nat)
    (row : Option view.Row) : Option Record :=
  match vd.View, row with
  | some v, some r => ((e.log Debug n).append (ExportView.rowFields v.Name vd.End r)).Msg "metric"
  | _, _ => none

/-- The records the loop writes for the rows still to visit: those of the
rows before the first row on which the body panics. -/
def ExportView.written (e : Exporter) (Debug : EventFn) (vd : view.Data) :
    List (Option view.Row) → Nat → List Record
  | [], _ => []
  | row :: rest, n =>
    if ExportView.panics vd row then []
    else (ExportView.record e Debug vd n row).toList
      ++ ExportView.written e Debug vd rest (n + 1)

/-- The number of rows the loop visits: all of them, or those up to and
including the first row on which the body panics. -/
def ExportView.visited (vd : view.Data) : List (Option view.Row) → Nat
  | [] => 0
  | row :: rest => if ExportView.panics vd row then 1 else ExportView.visited vd rest + 1

/-! ## Shapes of a span record -/

/-- The fields `ExportSpan` sets before its loops: the identifiers, the
parent identifier unless `reZero` matches it, name, status and duration. -/
def ExportSpan.fixedFields (vd : trace.SpanData) : List Field :=
  [⟨"traceId", .str (hex.EncodeToString vd.SpanContext.TraceID.bytes)⟩,
    ⟨"spanId", .str (hex.EncodeToString vd.SpanContext.SpanID.bytes)⟩]
  ++ (if !reZero.MatchString (hex.EncodeToString vd.ParentSpanID.bytes)
      then [⟨"parentSpanId", .str (hex.EncodeToString vd.ParentSpanID.bytes)⟩] else [])
  ++ [⟨"span", .str vd.Name⟩, ⟨"statusMessage", .str vd.Status.Message⟩,
    ⟨"statusCode", .int32 vd.Status.Code⟩,
    ⟨"elapsed", .dur (vd.EndTime.Sub vd.StartTime)⟩]

/-- The fields the loop over one annotation's attributes appends. -/
def ExportSpan.annotationFieldsOf (item : trace.Annotation) : List Field :=
  item.Attributes.range.map fun kv =>
    ⟨"annotations." ++ item.Message ++ "." ++ kv.1, AppendInterface kv.2⟩

/-- The fields the loop over the span's attributes appends. -/
def ExportSpan.attributeFields (vd : trace.SpanData) : List Field :=
  vd.Attributes.range.map fun kv => ⟨"attributes." ++ kv.1, AppendInterface kv.2⟩

/-- Two values of one Go map as two runs of `range` may visit it: the same
entries, in any order. -/
def trace.Attributes.sameEntries (m m' : trace.Attributes) : Prop :=
  (m.getD []).Perm (m'.getD [])

/-- The keys of the entries are distinct, as they are in a Go map. -/
def trace.Attributes.keysDistinct (m : trace.Attributes) : Prop :=
  ((m.getD []).map Prod.fst).Nodup

/-- The same annotation, up to the order in which its map is visited. -/
def trace.Annotation.sameInput (a b : trace.Annotation) : Prop :=
  a.Time = b.Time ∧ a.Message = b.Message ∧ a.Attributes.sameEntries b.Attributes

/-- The same span, up to the order in which its maps are visited: equal
identifiers, name, times and status, the same annotations in the same
sequence order, the same attributes. -/
def trace.SpanData.sameInput (v w : trace.SpanData) : Prop :=
  v.SpanContext = w.SpanContext ∧ v.ParentSpanID = w.ParentSpanID ∧ v.Name = w.Name ∧
  v.StartTime = w.StartTime ∧ v.EndTime = w.EndTime ∧ v.Status = w.Status ∧
  v.Attributes.sameEntries w.Attributes ∧
  List.Forall₂ trace.Annotation.sameInput v.Annotations w.Annotations

/-- All maps of the span have distinct keys. -/
def trace.SpanData.keysDistinct (v : trace.SpanData) : Prop :=
  v.Attributes.keysDistinct ∧ ∀ a ∈ v.Annotations, a.Attributes.keysDistinct

/-! ## Sample inputs -/

/-- A default logger as `zerolog/log` sets it up, debug enabled: every event
starts with the level and the time, the clock moving on between calls. -/
def stampingDebug : EventFn :=
  fun n => some ⟨[⟨"level", .str "debug"⟩, ⟨"time", .time ⟨1000 + n⟩⟩]⟩

/-- The exporter of the tests: `New(logger.Debug)` for a logger without
context, whose events start with the level. -/
def testExporter : Exporter := New (some fun _ => some ⟨[⟨"level", .str "debug"⟩]⟩)

/-- The exporter `New(logger.Debug)` for a logger whose level is above
debug: every event is nil. -/
def disabledExporter : Exporter := New (some fun _ => none)

/-- The exporter `New(nil)`. -/
def defaultExporter : Exporter := New none

/-- The snapshot of `TestMetrics`: the view `test/nothing_view` with one row,
count 2, tags `tag1=not1` and `tag2=not2`. -/
def nothingViewData : view.Data :=
  { View := some ⟨"test/nothing_view"⟩
    Start := ⟨0⟩
    End := ⟨100000000⟩
    Rows := [some ⟨[⟨⟨"tag1"⟩, "not1"⟩, ⟨⟨"tag2"⟩, "not2"⟩], .count (some ⟨2⟩)⟩] }

/-- A snapshot with one row of every data kind, an unset row and a row of
an unknown kind; some tag values are empty. -/
def mixedViewData : view.Data :=
  { View := some ⟨"test/mixed_view"⟩
    Start := ⟨0⟩
    End := ⟨5⟩
    Rows :=
      [some ⟨[⟨⟨"tag1"⟩, ""⟩, ⟨⟨"tag2"⟩, "b"⟩, ⟨⟨"tag3"⟩, ""⟩, ⟨⟨"tag4"⟩, "d"⟩],
          .distribution (some ⟨3, ⟨1⟩, ⟨9⟩, ⟨4⟩, ⟨7⟩⟩)⟩,
        some ⟨[⟨⟨"tag1"⟩, "a"⟩], .count (some ⟨2⟩)⟩,
        some ⟨[⟨⟨"tag1"⟩, ""⟩], .sum (some ⟨⟨11⟩⟩)⟩,
        some ⟨[], .lastValue (some ⟨⟨12⟩⟩)⟩,
        some ⟨[⟨⟨"tag1"⟩, "a"⟩], .unset⟩,
        some ⟨[⟨⟨"tag2"⟩, "b"⟩], .other 7⟩] }

/-- A snapshot whose second row holds a nil `*view.CountData`: the data kind
is set, the payload is missing. -/
def nilPayloadViewData : view.Data :=
  { View := some ⟨"test/nothing_view"⟩
    Start := ⟨0⟩
    End := ⟨5⟩
    Rows :=
      [some ⟨[⟨⟨"tag1"⟩, "a"⟩], .count (some ⟨2⟩)⟩,
        some ⟨[⟨⟨"tag1"⟩, "b"⟩], .count none⟩,
        some ⟨[⟨⟨"tag1"⟩, "c"⟩], .sum (some ⟨⟨11⟩⟩)⟩] }

/-- A snapshot whose first row holds a nil `*view.CountData` and whose
second row is unset. -/
def nilThenUnsetViewData : view.Data :=
  { View := some ⟨"test/nothing_view"⟩
    Start := ⟨0⟩
    End := ⟨5⟩
    Rows := [some ⟨[], .count none⟩, some ⟨[⟨⟨"tag1"⟩, "a"⟩], .unset⟩] }

/-- The snapshot of `TestMetrics` with a nil `*view.View`. -/
def nilViewData : view.Data := { nothingViewData with View := none }

/-- The snapshot of `TestMetrics` with a nil row after its row. -/
def nilRowViewData : view.Data :=
  { nothingViewData with Rows := nothingViewData.Rows ++ [none] }

/-- The span of `TestTrace`: `/foo`, no parent, four attributes. -/
def fooSpan : trace.SpanData :=
  { SpanContext :=
      ⟨⟨[1, 2, 3, 4, 5, 6, 7, 8, 9, 10, 11, 12, 13, 14, 15, 16], rfl⟩,
        ⟨[0, 0, 0, 0, 0, 0, 0, 171], rfl⟩⟩
    ParentSpanID := ⟨[0, 0, 0, 0, 0, 0, 0, 0], rfl⟩
    Name := "/foo"
    StartTime := ⟨10⟩
    EndTime := ⟨35⟩
    Attributes :=
      some [("key1", .bool false), ("key2", .bool true), ("key3", .string "hello"),
        ("key4", .string "hello")]
    Annotations := []
    Status := ⟨0, ""⟩ }

/-- The span `/foo` as a child span, with two annotations that carry
attributes of all four kinds. -/
def childSpan : trace.SpanData :=
  { fooSpan with
    ParentSpanID := ⟨[0, 0, 0, 0, 0, 0, 1, 0], rfl⟩
    Annotations :=
      [⟨⟨11⟩, "cache", some [("hit", .bool true), ("size", .int64 42)]⟩,
        ⟨⟨12⟩, "db", some [("query", .string "select"), ("cost", .float64 ⟨4607182418800017408⟩)]⟩] }

/-- The span `childSpan` with every map visited in another order. -/
def childSpanReordered : trace.SpanData :=
  { childSpan with
    Attributes :=
      some [("key2", .bool true), ("key1", .bool false), ("key3", .string "hello"),
        ("key4", .string "hello")]
    Annotations :=
      [⟨⟨11⟩, "cache", some [("size", .int64 42), ("hit", .bool true)]⟩,
        ⟨⟨12⟩, "db", some [("cost", .float64 ⟨4607182418800017408⟩), ("query", .string "select")]⟩] }

/-- The span `/foo` with a nil attribute map and two annotations, one with a
nil and one with an empty attribute map. -/
def bareSpan : trace.SpanData :=
  { fooSpan with
    Attributes := none
    Annotations := [⟨⟨11⟩, "started", none⟩, ⟨⟨12⟩, "done", some []⟩] }

/-- The span `/foo` with three annotations that all synthesize the field
name `annotations.a.b.c`: two with the message `a` and the key `b.c`, then
one with the message `a.b` and the key `c`. -/
def collisionSpan : trace.SpanData :=
  { fooSpan with
    Annotations :=
      [⟨⟨11⟩, "a", some [("b.c", .int64 1)]⟩,
        ⟨⟨12⟩, "a", some [("b.c", .int64 2)]⟩,
        ⟨⟨13⟩, "a.b", some [("c", .int64 3)]⟩] }

/-- The span `/foo` with two annotations of the message `retry`, both with
the key `attempt`. -/
def retrySpan : trace.SpanData :=
  { fooSpan with
    Annotations :=
      [⟨⟨11⟩, "retry", some [("attempt", .int64 1)]⟩,
        ⟨⟨12⟩, "retry", some [("attempt", .int64 2)]⟩] }

/-- A NaN: exponent bits all set, a fraction bit set (`0x7ff8000000000001`). -/
def nan : Float64 := ⟨9221120237041090561⟩

/-- Plus infinity: exponent bits all set, no fraction bit, sign 0
(`0x7ff0000000000000`). -/
def posInf : Float64 := ⟨9218868437227405312⟩

/-- The span `/foo` with one attribute, a NaN. -/
def nanSpan : trace.SpanData :=
  { fooSpan with Attributes := some [("ratio", .float64 nan)] }

/-- The span `/foo` with one annotation whose attribute is plus infinity. -/
def infSpan : trace.SpanData :=
  { fooSpan with Annotations := [⟨⟨11⟩, "limit", some [("max", .float64 posInf)]⟩] }

/-! ## Lemmas on events -/

theorem EventPtr.Str_eq (l : EventPtr) (key val : String) :
    l.Str key val = l.append [⟨key, .str val⟩] := by
  cases l <;> rfl

theorem EventPtr.Time_eq (l : EventPtr) (key : String) (t : time.Time) :
    l.Time key t = l.append [⟨key, .time t⟩] := by
  cases l <;> rfl

theorem EventPtr.Float64_eq (l : EventPtr) (key : String) (f : Float64) :
    l.Float64 key f = l.append [⟨key, .float64 f⟩] := by
  cases l <;> rfl

theorem EventPtr.Int64_eq (l : EventPtr) (key : String) (i : Int) :
    l.Int64 key i = l.append [⟨key, .int64 i⟩] := by
  cases l <;> rfl

theorem EventPtr.Int32_eq (l : EventPtr) (key : String) (i : Int) :
    l.Int32 key i = l.append [⟨key, .int32 i⟩] := by
  cases l <;> rfl

theorem EventPtr.Strs_eq (l : EventPtr) (key : String) (vals : List String) :
    l.Strs key vals = l.append [⟨key, .strs vals⟩] := by
  cases l <;> rfl

theorem EventPtr.Dur_eq (l : EventPtr) (key : String) (d : time.Duration) :
    l.Dur key d = l.append [⟨key, .dur d⟩] := by
  cases l <;> rfl

theorem EventPtr.Interface_eq (l : EventPtr) (key : String) (i : Any) :
    l.Interface key i = l.append [⟨key, AppendInterface i⟩] := by
  cases l <;> rfl

theorem EventPtr.append_append (l : EventPtr) (fs gs : List Field) :
    (l.append fs).append gs = l.append (fs ++ gs) := by
  cases l with
  | none => rfl
  | some ev => simp [EventPtr.append]

theorem EventPtr.append_nil (l : EventPtr) : l.append [] = l := by
  cases l with
  | none => rfl
  | some ev => simp [EventPtr.append]

/-- The record of an event with fields appended: nothing for a nil event,
else the fields of the event followed by the appended ones. -/
theorem EventPtr.Msg_append (l : EventPtr) (fs : List Field) (msg : String) :
    (l.append fs).Msg msg = l.map fun ev => ⟨ev.fields ++ fs, msg⟩ := by
  cases l <;> rfl

theorem Exporter.fieldsSet_of_log (e : Exporter) (Debug : EventFn) (k : Nat) (ev : Event)
    (h : e.log Debug k = some ev) (fs : List Field) (msg : String) :
    e.fieldsSet Debug k ⟨ev.fields ++ fs, msg⟩ = fs := by
  simp [Exporter.fieldsSet, h]

/-! ## Lemmas on `ExportView` -/

theorem ExportView.tags_eq (ts : List tag.Tag) (acc : List String) :
    ExportView.tags ts acc = acc ++ (ts.filter fun t => t.Value ≠ "").map tagText := by
  induction ts generalizing acc with
  | nil => simp [ExportView.tags]
  | cons t rest ih =>
    by_cases h : t.Value = ""
    · simp [ExportView.tags, h, ih]
    · simp [ExportView.tags, h, ih, tagText]

/-- The type switch panics exactly on a nil pointer of a known kind, and
else appends the fields of the kind. -/
theorem ExportView.switch_eq (l : EventPtr) (d : view.AggregationData) :
    ExportView.switch l d
      = if d.populated then .ok (l.append (ExportView.kindFields d)) else .panic := by
  cases d with
  | unset => simp [ExportView.switch, view.AggregationData.populated, ExportView.kindFields,
      EventPtr.append_nil]
  | other k => simp [ExportView.switch, view.AggregationData.populated, ExportView.kindFields,
      EventPtr.append_nil]
  | distribution v =>
    cases v <;> simp [ExportView.switch, view.AggregationData.populated,
      ExportView.kindFields, EventPtr.Float64_eq, EventPtr.append_append]
  | count v =>
    cases v <;> simp [ExportView.switch, view.AggregationData.populated,
      ExportView.kindFields, EventPtr.Int64_eq]
  | sum v =>
    cases v <;> simp [ExportView.switch, view.AggregationData.populated,
      ExportView.kindFields, EventPtr.Float64_eq]
  | lastValue v =>
    cases v <;> simp [ExportView.switch, view.AggregationData.populated,
      ExportView.kindFields, EventPtr.Float64_eq]

/-- The body of the loop, by cases: a panic on a nil view, a nil row or a
nil payload, and else the record of the row. -/
theorem ExportView.body_eq (e : Exporter) (Debug : EventFn) (vd : view.Data) (n : Nat)
    (row : Option view.Row) :
    ExportView.body e Debug vd n row
      = if ExportView.panics vd row then .panic
        else .ok (ExportView.record e Debug vd n row) := by
  unfold ExportView.body ExportView.panics ExportView.record
  cases hv : vd.View with
  | none => simp
  | some v =>
    cases row with
    | none => simp [view.rowOk]
    | some r =>
      simp only [ExportView.switch_eq, view.rowOk, Option.isSome_some, Bool.not_true,
        Bool.false_or]
      cases hp : r.Data.populated
      · simp
      · simp [EventPtr.Str_eq, EventPtr.Time_eq, EventPtr.Strs_eq, EventPtr.append_append,
          ExportView.tags_eq, ExportView.rowFields]

/-- The loop writes the records of the rows before the first row on which
the body panics, panics exactly when there is such a row, and calls `log()`
once for every row it visits. -/
theorem ExportView.loop_eq (e : Exporter) (Debug : EventFn) (vd : view.Data)
    (rows : List (Option view.Row)) (out : List Record) (n : Nat) :
    ExportView.loop e Debug vd rows out n =
      ⟨out ++ ExportView.written e Debug vd rows n, rows.any (ExportView.panics vd),
        n + ExportView.visited vd rows⟩ := by
  induction rows generalizing out n with
  | nil => simp [ExportView.loop, ExportView.written, ExportView.visited]
  | cons row rest ih =>
    simp only [ExportView.loop, ExportView.body_eq, ExportView.written, ExportView.visited,
      List.any_cons]
    cases hp : ExportView.panics vd row
    · cases hr : ExportView.record e Debug vd n row with
      | none => simp [ih]; omega
      | some r => simp [ih]; omega
    · simp

theorem ExportView.eq_written (e : Exporter) (Debug : EventFn) (vd : view.Data) (n : Nat) :
    ExportView e Debug vd n =
      ⟨ExportView.written e Debug vd vd.Rows n, vd.Rows.any (ExportView.panics vd),
        n + ExportView.visited vd vd.Rows⟩ := by
  rw [ExportView, ExportView.loop_eq, List.nil_append]

theorem ExportView.panics_of_wellFormed (vd : view.Data) (h : vd.wellFormed) :
    ∀ row ∈ vd.Rows, ExportView.panics vd row = false := by
  intro row hrow
  obtain ⟨hview, hrows⟩ := h
  have hv : vd.View.isSome = true := by
    rcases hview with hnil | hv
    · rw [hnil] at hrow; simp at hrow
    · exact hv
  simp [ExportView.panics, hv, hrows row hrow]

/-- Over rows on which the body does not panic, the records of a
concatenation are those of the first part followed by those of the second
part, written with the calls of `log()` that follow. -/
theorem ExportView.written_append (e : Exporter) (Debug : EventFn) (vd : view.Data)
    (R1 R2 : List (Option view.Row)) (n : Nat)
    (h : ∀ row ∈ R1, ExportView.panics vd row = false) :
    ExportView.written e Debug vd (R1 ++ R2) n
      = ExportView.written e Debug vd R1 n
        ++ ExportView.written e Debug vd R2 (n + R1.length) ∧
    ExportView.visited vd (R1 ++ R2) = R1.length + ExportView.visited vd R2 := by
  induction R1 generalizing n with
  | nil => simp [ExportView.written]
  | cons row rest ih =>
    have hrow := h row (List.mem_cons_self _ _)
    obtain ⟨ih1, ih2⟩ := ih (n + 1) fun r hr => h r (List.mem_cons_of_mem _ hr)
    have hcons : (row :: rest) ++ R2 = row :: (rest ++ R2) := rfl
    rw [hcons]
    refine ⟨?_, ?_⟩
    · rw [ExportView.written, ExportView.written, ih1]
      simp only [hrow, Bool.false_eq_true, if_false, List.length_cons, List.append_assoc]
      rw [show n + (rest.length + 1) = n + 1 + rest.length by omega]
    · rw [ExportView.visited, ih2]
      simp only [hrow, Bool.false_eq_true, if_false, List.length_cons]
      omega

theorem ExportView.visited_of_no_panic (vd : view.Data) (rows : List (Option view.Row))
    (h : ∀ row ∈ rows, ExportView.panics vd row = false) :
    ExportView.visited vd rows = rows.length := by
  have := (ExportView.written_append (New none) (fun _ => none) vd rows [] 0 h).2
  simpa [ExportView.visited] using this

/-- With live events and no panic, the records are in step with the rows:
the record at position `i` is the one of row `i`, built on the event of the
call of `log()` made for that row. -/
theorem ExportView.written_getElem (e : Exporter) (Debug : EventFn) (vd : view.Data)
    (rows : List (Option view.Row)) (n : Nat)
    (h : ∀ row ∈ rows, ExportView.panics vd row = false)
    (hlive : e.liveFor Debug n rows.length) :
    (ExportView.written e Debug vd rows n).length = rows.length ∧
    ∀ (i : Nat) (row : Option view.Row), rows[i]? = some row →
      ∃ r, (ExportView.written e Debug vd rows n)[i]? = some r ∧
        ExportView.record e Debug vd (n + i) row = some r := by
  induction rows generalizing n with
  | nil => simp [ExportView.written]
  | cons row rest ih =>
    have hrow := h row (List.mem_cons_self _ _)
    have hlive' : e.liveFor Debug (n + 1) rest.length := by
      intro j hj
      have := hlive (j + 1) (by simp only [List.length_cons]; omega)
      rwa [show n + (j + 1) = n + 1 + j by omega] at this
    obtain ⟨ihlen, ihget⟩ := ih (n + 1) (fun r hr => h r (List.mem_cons_of_mem _ hr)) hlive'
    have hsome : ∃ r, ExportView.record e Debug vd n row = some r := by
      have hl := hlive 0 (by simp)
      obtain ⟨ev, hev⟩ := Option.isSome_iff_exists.mp hl
      simp only [ExportView.panics, Bool.or_eq_false_iff, Bool.not_eq_false'] at hrow
      obtain ⟨v, hv⟩ := Option.isSome_iff_exists.mp hrow.1
      cases row with
      | none => simp [view.rowOk] at hrow
      | some r =>
        simp only [Nat.add_zero] at hev
        simp [ExportView.record, hv, hev, EventPtr.append, EventPtr.Msg]
    obtain ⟨r0, hr0⟩ := hsome
    refine ⟨?_, ?_⟩
    · simp [ExportView.written, hrow, hr0, ihlen]
    · intro i row' hi
      cases i with
      | zero =>
        simp only [List.getElem?_cons_zero, Option.some.injEq] at hi
        subst hi
        exact ⟨r0, by simp [ExportView.written, hrow, hr0], by simpa using hr0⟩
      | succ j =>
        simp only [List.getElem?_cons_succ] at hi
        obtain ⟨r, hr, hrec⟩ := ihget j row' hi
        refine ⟨r, ?_, ?_⟩
        · simp [ExportView.written, hrow, hr0, hr]
        · rwa [show n + (j + 1) = n + 1 + j by omega]

/-- The record of a row, field by field: the event of `log()`, then `name`
and `end`, the fields of the data kind, and `tags`. -/
theorem ExportView.record_fields (e : Exporter) (Debug : EventFn) (vd : view.Data) (k : Nat)
    (row : Option view.Row) (r : Record) (h : ExportView.record e Debug vd k row = some r) :
    ∃ v row' ev, vd.View = some v ∧ row = some row' ∧ e.log Debug k = some ev ∧
      r = ⟨ev.fields ++ ExportView.rowFields v.Name vd.End row', "metric"⟩ ∧
      r.message = "metric" ∧
      e.fieldsSet Debug k r = ExportView.rowFields v.Name vd.End row' := by
  unfold ExportView.record at h
  cases hv : vd.View with
  | none => simp [hv] at h
  | some v =>
    cases row with
    | none => simp [hv] at h
    | some row' =>
      cases hl : e.log Debug k with
      | none => simp [hv, hl, EventPtr.append, EventPtr.Msg] at h
      | some ev =>
        simp only [hv, hl, EventPtr.append, EventPtr.Msg, Option.some.injEq] at h
        subst h
        exact ⟨v, row', ev, rfl, rfl, rfl, rfl, rfl, Exporter.fieldsSet_of_log e Debug k ev hl _ _⟩

/-- In a well-formed snapshot exported with live events, the record at
position `i` is the record of row `i`. -/
theorem ExportView.record_at (e : Exporter) (Debug : EventFn) (vd : view.Data) (n : Nat)
    (h : vd.wellFormed) (hlive : e.liveFor Debug n vd.Rows.length)
    (i : Nat) (row : Option view.Row) (hi : vd.Rows[i]? = some row) :
    ∃ r v row' ev, (ExportView e Debug vd n).records[i]? = some r ∧
      vd.View = some v ∧ row = some row' ∧ e.log Debug (n + i) = some ev ∧
      r = ⟨ev.fields ++ ExportView.rowFields v.Name vd.End row', "metric"⟩ ∧
      e.fieldsSet Debug (n + i) r = ExportView.rowFields v.Name vd.End row' := by
  obtain ⟨_, hget⟩ := ExportView.written_getElem e Debug vd vd.Rows n
    (ExportView.panics_of_wellFormed vd h) hlive
  obtain ⟨r, hr, hrec⟩ := hget i row hi
  obtain ⟨v, row', ev, hv, hrow, hev, hreq, _, hset⟩ :=
    ExportView.record_fields e Debug vd (n + i) row r hrec
  refine ⟨r, v, row', ev, ?_, hv, hrow, hev, hreq, hset⟩
  rw [ExportView.eq_written]
  exact hr

theorem ExportView.panics_congr (vd vd' : view.Data) (hview : vd.View = vd'.View) :
    ExportView.panics vd = ExportView.panics vd' := by
  funext row
  simp [ExportView.panics, hview]

theorem ExportView.record_congr (e : Exporter) (Debug : EventFn) (vd vd' : view.Data)
    (hview : vd.View = vd'.View) (hend : vd.End = vd'.End) (n : Nat)
    (row : Option view.Row) :
    ExportView.record e Debug vd n row = ExportView.record e Debug vd' n row := by
  simp [ExportView.record, hview, hend]

/-- The loop reads the snapshot, besides the rows it ranges over, only
through the view and the end time. -/
theorem ExportView.written_congr (e : Exporter) (Debug : EventFn) (vd vd' : view.Data)
    (hview : vd.View = vd'.View) (hend : vd.End = vd'.End)
    (rows : List (Option view.Row)) (n : Nat) :
    ExportView.written e Debug vd rows n = ExportView.written e Debug vd' rows n ∧
    ExportView.visited vd rows = ExportView.visited vd' rows := by
  induction rows generalizing n with
  | nil => exact ⟨rfl, rfl⟩
  | cons row rest ih =>
    simp only [ExportView.written, ExportView.visited,
      ExportView.panics_congr vd vd' hview, ExportView.record_congr e Debug vd vd' hview hend,
      (ih (n + 1)).1, (ih n).2, and_self]

theorem ExportView.body_congr (e : Exporter) (Debug : EventFn) (vd vd' : view.Data)
    (hview : vd.View = vd'.View) (hend : vd.End = vd'.End) (n : Nat)
    (row : Option view.Row) :
    ExportView.body e Debug vd n row = ExportView.body e Debug vd' n row := by
  simp only [ExportView.body_eq, ExportView.panics_congr vd vd' hview,
    ExportView.record_congr e Debug vd vd' hview hend]

/-- No more records than rows before the first row on which the body
panics. -/
theorem ExportView.length_written_le (e : Exporter) (Debug : EventFn) (vd : view.Data)
    (rows : List (Option view.Row)) (n : Nat) :
    (ExportView.written e Debug vd rows n).length
      ≤ (rows.takeWhile fun row => !ExportView.panics vd row).length := by
  induction rows generalizing n with
  | nil => simp [ExportView.written]
  | cons row rest ih =>
    cases hp : ExportView.panics vd row
    · have := ih (n + 1)
      cases hr : ExportView.record e Debug vd n row <;>
        simp [ExportView.written, hp, hr, List.takeWhile_cons] <;> omega
    · simp [ExportView.written, hp]

/-- With nil events only, nothing is written. -/
theorem ExportView.written_of_disabled (e : Exporter) (Debug : EventFn) (vd : view.Data)
    (rows : List (Option view.Row)) (n : Nat)
    (hnil : ∀ j, j < rows.length → e.log Debug (n + j) = none) :
    ExportView.written e Debug vd rows n = [] := by
  induction rows generalizing n with
  | nil => rfl
  | cons row rest ih =>
    have h0 : e.log Debug n = none := by simpa using hnil 0 (by simp)
    have hrest := ih (n + 1) fun j hj => by
      have := hnil (j + 1) (by simp only [List.length_cons]; omega)
      rwa [show n + (j + 1) = n + 1 + j by omega] at this
    have hrec : ExportView.record e Debug vd n row = none := by
      unfold ExportView.record
      cases vd.View <;> cases row <;> simp [h0, EventPtr.append, EventPtr.Msg]
    simp [ExportView.written, hrec, hrest]

theorem ExportView.wellFormed_iff (vd : view.Data) :
    vd.wellFormed ↔ ∀ row ∈ vd.Rows, ExportView.panics vd row = false := by
  constructor
  · exact ExportView.panics_of_wellFormed vd
  · intro h
    refine ⟨?_, ?_⟩
    · cases hrows : vd.Rows with
      | nil => exact Or.inl rfl
      | cons row rest =>
        right
        have := h row (by rw [hrows]; exact List.mem_cons_self _ _)
        simp only [ExportView.panics, Bool.or_eq_false_iff, Bool.not_eq_false'] at this
        exact this.1
    · intro row hrow
      have := h row hrow
      simp only [ExportView.panics, Bool.or_eq_false_iff, Bool.not_eq_false'] at this
      exact this.2

theorem ExportView.visited_eq (vd : view.Data) (rows : List (Option view.Row)) :
    ExportView.visited vd rows
      = if rows.any (ExportView.panics vd)
        then (rows.takeWhile fun row => !ExportView.panics vd row).length + 1
        else rows.length := by
  induction rows with
  | nil => rfl
  | cons row rest ih =>
    cases hp : ExportView.panics vd row
    · simp only [ExportView.visited, hp, List.any_cons, Bool.false_or, ih,
        List.takeWhile_cons, Bool.not_false, if_true, List.length_cons, Bool.false_eq_true,
        if_false]
      split <;> rfl
    · simp [ExportView.visited, hp, List.takeWhile_cons]

/-- The records of rows on which the body does not panic, call by call: row
after row, each with the event of its own call of `log()`. -/
theorem ExportView.written_eq_enumFrom (e : Exporter) (Debug : EventFn) (vd : view.Data)
    (rows : List (Option view.Row)) (n : Nat)
    (h : ∀ row ∈ rows, ExportView.panics vd row = false) :
    ExportView.written e Debug vd rows n
      = (rows.enumFrom n).flatMap fun p => (ExportView.record e Debug vd p.1 p.2).toList := by
  induction rows generalizing n with
  | nil => rfl
  | cons row rest ih =>
    simp only [ExportView.written, h row (List.mem_cons_self _ _), Bool.false_eq_true,
      if_false, List.enumFrom_cons, List.flatMap_cons,
      ih (n + 1) fun r hr => h r (List.mem_cons_of_mem _ hr)]

/-- The loop reads the number of calls made so far only through the events
`log()` returns. -/
theorem ExportView.written_congr_log (e : Exporter) (Debug : EventFn) (vd : view.Data)
    (rows : List (Option view.Row)) (n n' : Nat)
    (h : ∀ j, j < rows.length → e.log Debug (n + j) = e.log Debug (n' + j)) :
    ExportView.written e Debug vd rows n = ExportView.written e Debug vd rows n' := by
  induction rows generalizing n n' with
  | nil => rfl
  | cons row rest ih =>
    have h0 : e.log Debug n = e.log Debug n' := by simpa using h 0 (by simp)
    have hrest := ih (n + 1) (n' + 1) fun j hj => by
      have := h (j + 1) (by simp only [List.length_cons]; omega)
      rwa [show n + (j + 1) = n + 1 + j by omega,
        show n' + (j + 1) = n' + 1 + j by omega] at this
    simp only [ExportView.written, ExportView.record, h0, hrest]

/-! ## Lemmas on `ExportSpan` -/

theorem EventPtr.foldl_Interface (name : String → String)
    (kvs : List (String × Any)) (l : EventPtr) :
    kvs.foldl (fun l kv => l.Interface (name kv.1) kv.2) l
      = l.append (kvs.map fun kv => ⟨name kv.1, AppendInterface kv.2⟩) := by
  induction kvs generalizing l with
  | nil => simp [EventPtr.append_nil]
  | cons kv rest ih =>
    rw [List.foldl_cons, ih, EventPtr.Interface_eq, EventPtr.append_append]
    rfl

theorem ExportSpan.annotationFields_eq (item : trace.Annotation) (l : EventPtr) :
    ExportSpan.annotationFields item l = l.append (ExportSpan.annotationFieldsOf item) :=
  EventPtr.foldl_Interface (fun k => "annotations." ++ item.Message ++ "." ++ k) _ l

theorem ExportSpan.annotations_eq (items : List trace.Annotation) (l : EventPtr) :
    items.foldl (fun l item => ExportSpan.annotationFields item l) l
      = l.append (items.flatMap ExportSpan.annotationFieldsOf) := by
  induction items generalizing l with
  | nil => simp [EventPtr.append_nil]
  | cons item rest ih =>
    rw [List.foldl_cons, ih, ExportSpan.annotationFields_eq, EventPtr.append_append]
    rfl

/-- The call of `ExportSpan`, field by field: no record for a nil event,
and else one record, the event of `log()`, the fixed fields, the annotation
attributes in sequence order, the span attributes. -/
theorem ExportSpan.eq_record (e : Exporter) (Debug : EventFn) (vd : trace.SpanData)
    (n : Nat) :
    ExportSpan e Debug vd n =
      ⟨((e.log Debug n).map fun ev => (⟨ev.fields ++ (ExportSpan.fixedFields vd
          ++ (vd.Annotations.flatMap ExportSpan.annotationFieldsOf
          ++ ExportSpan.attributeFields vd)), "trace"⟩ : Record)).toList, false, n + 1⟩ := by
  simp only [ExportSpan, EventPtr.foldl_Interface, ExportSpan.annotations_eq,
    EventPtr.Str_eq, EventPtr.Int32_eq, EventPtr.Dur_eq, EventPtr.append_append,
    ExportSpan.fixedFields, ExportSpan.attributeFields]
  split <;> simp [EventPtr.append_append, EventPtr.Msg_append]

/-- With a live event `ExportSpan` writes one record and returns. -/
theorem ExportSpan.of_live (e : Exporter) (Debug : EventFn) (vd : trace.SpanData) (n : Nat)
    (hlive : (e.log Debug n).isSome = true) :
    ∃ r, ExportSpan e Debug vd n = ⟨[r], false, n + 1⟩ ∧ r.message = "trace" ∧
      e.fieldsSet Debug n r = ExportSpan.fixedFields vd
        ++ (vd.Annotations.flatMap ExportSpan.annotationFieldsOf
        ++ ExportSpan.attributeFields vd) := by
  obtain ⟨ev, hev⟩ := Option.isSome_iff_exists.mp hlive
  refine ⟨⟨ev.fields ++ (ExportSpan.fixedFields vd
    ++ (vd.Annotations.flatMap ExportSpan.annotationFieldsOf
    ++ ExportSpan.attributeFields vd)), "trace"⟩, ?_, rfl, ?_⟩
  · rw [ExportSpan.eq_record, hev]
    rfl
  · exact Exporter.fieldsSet_of_log e Debug n ev hev _ _

/-- With a nil event `ExportSpan` writes nothing and returns. -/
theorem ExportSpan.of_disabled (e : Exporter) (Debug : EventFn) (vd : trace.SpanData)
    (n : Nat) (hnil : e.log Debug n = none) :
    ExportSpan e Debug vd n = ⟨[], false, n + 1⟩ := by
  rw [ExportSpan.eq_record, hnil]
  rfl

/-- Every field name the two loops of `ExportSpan` synthesize begins with
the letter `a`. -/
theorem ExportSpan.loop_key_head (vd : trace.SpanData) :
    ∀ f ∈ vd.Annotations.flatMap ExportSpan.annotationFieldsOf
        ++ ExportSpan.attributeFields vd, f.key.data.head? = some 'a' := by
  intro f hf
  rcases List.mem_append.mp hf with hf | hf
  · obtain ⟨item, _, hitem⟩ := List.mem_flatMap.mp hf
    obtain ⟨kv, _, rfl⟩ := List.mem_map.mp hitem
    rfl
  · obtain ⟨kv, _, rfl⟩ := List.mem_map.mp hf
    rfl

theorem fieldValues_append (key : String) (fs gs : List Field) :
    fieldValues key (fs ++ gs) = fieldValues key fs ++ fieldValues key gs := by
  simp [fieldValues]

theorem fieldValues_eq_nil (key : String) (fs : List Field)
    (h : ∀ f ∈ fs, f.key ≠ key) : fieldValues key fs = [] := by
  simp only [fieldValues, List.map_eq_nil_iff, List.filter_eq_nil_iff]
  intro f hf
  simpa using h f hf

/-- A name that does not begin with `a` is set by no loop of `ExportSpan`. -/
theorem ExportSpan.fieldValues_loops (vd : trace.SpanData) (key : String)
    (hkey : key.data.head? ≠ some 'a') :
    fieldValues key (vd.Annotations.flatMap ExportSpan.annotationFieldsOf
        ++ ExportSpan.attributeFields vd) = [] := by
  apply fieldValues_eq_nil
  intro f hf heq
  exact hkey (heq ▸ ExportSpan.loop_key_head vd f hf)

/-- The values of a fixed field name in the record of a span are those among
the fixed fields. -/
theorem ExportSpan.fieldValues_fixed (e : Exporter) (Debug : EventFn) (vd : trace.SpanData)
    (n : Nat) (hlive : (e.log Debug n).isSome = true) (key : String)
    (hkey : key.data.head? ≠ some 'a') :
    ∃ r, ExportSpan e Debug vd n = ⟨[r], false, n + 1⟩ ∧ r.message = "trace" ∧
      fieldValues key (e.fieldsSet Debug n r)
        = fieldValues key (ExportSpan.fixedFields vd) := by
  obtain ⟨r, hr, hmsg, hset⟩ := ExportSpan.of_live e Debug vd n hlive
  refine ⟨r, hr, hmsg, ?_⟩
  rw [hset, fieldValues_append, ExportSpan.fieldValues_loops vd key hkey, List.append_nil]

/-- The seven field names `ExportSpan` uses outside its loops. -/
theorem ExportSpan.fixed_keys (vd : trace.SpanData) :
    ∀ f ∈ ExportSpan.fixedFields vd,
      f.key ∈ ["traceId", "spanId", "parentSpanId", "span", "statusMessage", "statusCode",
        "elapsed"] := by
  intro f hf
  simp only [ExportSpan.fixedFields] at hf
  split at hf
  · simp at hf; rcases hf with h | h | h | h | h | h | h <;> simp [h]
  · simp at hf; rcases hf with h | h | h | h | h | h <;> simp [h]

theorem ExportSpan.fixed_not_loop_named (vd : trace.SpanData) :
    ∀ f ∈ ExportSpan.fixedFields vd,
      keyStartsWith "attributes." f = false ∧ keyStartsWith "annotations." f = false := by
  intro f hf
  have hk := ExportSpan.fixed_keys vd f hf
  simp only [List.mem_cons, List.mem_singleton, List.not_mem_nil, or_false] at hk
  rcases hk with h | h | h | h | h | h | h <;> simp only [keyStartsWith, h] <;> decide

theorem ExportSpan.annotation_keys (vd : trace.SpanData) :
    ∀ f ∈ vd.Annotations.flatMap ExportSpan.annotationFieldsOf,
      keyStartsWith "attributes." f = false ∧ keyStartsWith "annotations." f = true := by
  intro f hf
  obtain ⟨item, _, hitem⟩ := List.mem_flatMap.mp hf
  obtain ⟨kv, _, rfl⟩ := List.mem_map.mp hitem
  simp only [keyStartsWith, String.data_append, List.append_assoc]
  exact ⟨rfl, List.isPrefixOf_iff_prefix.mpr (List.prefix_append _ _)⟩

theorem ExportSpan.attribute_keys (vd : trace.SpanData) :
    ∀ f ∈ ExportSpan.attributeFields vd,
      keyStartsWith "attributes." f = true ∧ keyStartsWith "annotations." f = false := by
  intro f hf
  obtain ⟨kv, _, rfl⟩ := List.mem_map.mp hf
  simp only [keyStartsWith, String.data_append]
  exact ⟨List.isPrefixOf_iff_prefix.mpr (List.prefix_append _ _), rfl⟩

theorem filter_eq_nil_of_false {α : Type} (p : α → Bool) (l : List α)
    (h : ∀ x ∈ l, p x = false) : l.filter p = [] := by
  rw [List.filter_eq_nil_iff]
  intro x hx
  simp [h x hx]

theorem filter_eq_self_of_true {α : Type} (p : α → Bool) (l : List α)
    (h : ∀ x ∈ l, p x = true) : l.filter p = l :=
  List.filter_eq_self.mpr h

/-- A field list in which no name starts with `p` holds no field whose name
starts with `p`. -/
theorem fieldValues_eq_nil_of_keyStartsWith (p key : String) (fs : List Field)
    (h : ∀ f ∈ fs, keyStartsWith p f = false) (hkey : p.data.isPrefixOf key.data = true) :
    fieldValues key fs = [] := by
  apply fieldValues_eq_nil
  intro f hf heq
  have := h f hf
  rw [keyStartsWith, heq, hkey] at this
  exact Bool.noConfusion this

theorem append_left_cancel_string (p a b : String) (h : p ++ a = p ++ b) : a = b := by
  apply String.ext
  have := congrArg String.data h
  simpa using this

/-- In a map (keys distinct) the fields made from its entries hold, under the
name made from a key, the value of that key and nothing else. -/
theorem fieldValues_of_entries (p : String) (kvs : List (String × Any))
    (hnd : (kvs.map Prod.fst).Nodup) (k : String) (v : Any) (hmem : (k, v) ∈ kvs) :
    fieldValues (p ++ k) (kvs.map fun kv => ⟨p ++ kv.1, AppendInterface kv.2⟩)
      = [AppendInterface v] := by
  induction kvs with
  | nil => simp at hmem
  | cons kv rest ih =>
    rw [List.map_cons, List.nodup_cons] at hnd
    obtain ⟨hnot, hnd⟩ := hnd
    by_cases hk : kv.1 = k
    · have hkv : kv = (k, v) := by
        rcases List.mem_cons.mp hmem with h | h
        · exact h.symm
        · exact absurd (List.mem_map.mpr ⟨(k, v), h, hk.symm⟩) hnot
      subst hkv
      have hrest : fieldValues (p ++ k) (rest.map fun kv => ⟨p ++ kv.1, AppendInterface kv.2⟩) = [] := by
        apply fieldValues_eq_nil
        intro f hf heq
        obtain ⟨kv2, hkv2, rfl⟩ := List.mem_map.mp hf
        have : kv2.1 = k := append_left_cancel_string p _ _ heq
        exact hnot (List.mem_map.mpr ⟨kv2, hkv2, this⟩)
      have hsplit := fieldValues_append (p ++ k) [⟨p ++ k, AppendInterface v⟩]
        (rest.map fun kv => ⟨p ++ kv.1, AppendInterface kv.2⟩)
      simp only [List.singleton_append] at hsplit
      rw [List.map_cons, hsplit, hrest]
      simp [fieldValues]
    · have hmem2 : (k, v) ∈ rest := by
        rcases List.mem_cons.mp hmem with h | h
        · exact absurd (congrArg Prod.fst h).symm hk
        · exact h
      have hne : p ++ kv.1 ≠ p ++ k := fun h => hk (append_left_cancel_string p _ _ h)
      have hsplit := fieldValues_append (p ++ k) [⟨p ++ kv.1, AppendInterface kv.2⟩]
        (rest.map fun kv => ⟨p ++ kv.1, AppendInterface kv.2⟩)
      simp only [List.singleton_append] at hsplit
      rw [List.map_cons, hsplit, ih hnd hmem2]
      simp [fieldValues, hne]

/-- The fields of a span record whose name starts with `attributes.` are
those of the span attributes; those whose name starts with `annotations.` are
those of the annotations. -/
theorem ExportSpan.filter_loops (vd : trace.SpanData) :
    (ExportSpan.fixedFields vd ++ (vd.Annotations.flatMap ExportSpan.annotationFieldsOf
        ++ ExportSpan.attributeFields vd)).filter (keyStartsWith "attributes.")
      = ExportSpan.attributeFields vd ∧
    (ExportSpan.fixedFields vd ++ (vd.Annotations.flatMap ExportSpan.annotationFieldsOf
        ++ ExportSpan.attributeFields vd)).filter (keyStartsWith "annotations.")
      = vd.Annotations.flatMap ExportSpan.annotationFieldsOf := by
  constructor
  · rw [List.filter_append, List.filter_append,
      filter_eq_nil_of_false _ _ fun f hf => (ExportSpan.fixed_not_loop_named vd f hf).1,
      filter_eq_nil_of_false _ _ fun f hf => (ExportSpan.annotation_keys vd f hf).1,
      filter_eq_self_of_true _ _ fun f hf => (ExportSpan.attribute_keys vd f hf).1]
    rfl
  · rw [List.filter_append, List.filter_append,
      filter_eq_nil_of_false _ _ fun f hf => (ExportSpan.fixed_not_loop_named vd f hf).2,
      filter_eq_self_of_true _ _ fun f hf => (ExportSpan.annotation_keys vd f hf).2,
      filter_eq_nil_of_false _ _ fun f hf => (ExportSpan.attribute_keys vd f hf).2]
    simp

theorem time.Sub_pos (t u : time.Time) (h : t.After u) : (0 : Int) < (t.Sub u : Int) := by
  unfold time.Time.After at h
  simp only [time.Time.Sub, time.minDuration, time.maxDuration]
  split_ifs <;> omega

theorem time.Sub_exact (t u : time.Time)
    (h : time.minDuration ≤ t.nanos - u.nanos ∧ t.nanos - u.nanos ≤ time.maxDuration) :
    (t.Sub u : Int) = t.nanos - u.nanos := by
  simp only [time.Time.Sub, time.minDuration, time.maxDuration] at h ⊢
  split_ifs
  · exfalso; omega
  · exfalso; omega
  · rfl

theorem fixedNames_head : ∀ n ∈ fixedNames, n.data.head? ≠ some 'a' := by
  decide

theorem annotation_name_head (m k : String) :
    ("annotations." ++ m ++ "." ++ k).data.head? = some 'a' := by
  simp only [String.data_append, List.append_assoc]
  rfl

theorem attribute_name_head (k : String) : ("attributes." ++ k).data.head? = some 'a' := by
  simp only [String.data_append]
  rfl

theorem attribute_name_ne_annotation_name (m k k' : String) :
    "attributes." ++ k' ≠ "annotations." ++ m ++ "." ++ k := by
  intro h
  have h1 : "attributes.".data.isPrefixOf ("attributes." ++ k').data = true := by
    rw [String.data_append]
    exact List.isPrefixOf_iff_prefix.mpr (List.prefix_append _ _)
  have h2 : "attributes.".data.isPrefixOf ("annotations." ++ m ++ "." ++ k).data = false := by
    simp only [String.data_append, List.append_assoc]
    rfl
  rw [h, h2] at h1
  exact Bool.noConfusion h1

theorem fieldValues_flatMap {α : Type} (key : String) (f : α → List Field) (l : List α)
    (h : ∀ a ∈ l, fieldValues key (f a) = []) : fieldValues key (l.flatMap f) = [] := by
  apply fieldValues_eq_nil
  intro g hg heq
  obtain ⟨a, ha, hga⟩ := List.mem_flatMap.mp hg
  have hnil := h a ha
  simp only [fieldValues, List.map_eq_nil_iff, List.filter_eq_nil_iff] at hnil
  exact hnil g hga (by simp [heq])

/-- Under one name, the fields made from the entries of a map with distinct
keys hold at most one value. -/
theorem length_filter_entries_le_one (p key : String) (kvs : List (String × Any))
    (hnd : (kvs.map Prod.fst).Nodup) :
    ((kvs.map fun kv => (⟨p ++ kv.1, AppendInterface kv.2⟩ : Field)).filter
      fun f => f.key == key).length ≤ 1 := by
  induction kvs with
  | nil => simp
  | cons kv rest ih =>
    rw [List.map_cons, List.nodup_cons] at hnd
    obtain ⟨hnot, hnd⟩ := hnd
    by_cases hk : p ++ kv.1 = key
    · have hrest : (rest.map fun kv => (⟨p ++ kv.1, AppendInterface kv.2⟩ : Field)).filter
          (fun f => f.key == key) = [] := by
        rw [List.filter_eq_nil_iff]
        intro f hf hkey
        obtain ⟨kv2, hkv2, rfl⟩ := List.mem_map.mp hf
        have heq : p ++ kv2.1 = p ++ kv.1 := by
          rw [hk]; simpa using hkey
        exact hnot (List.mem_map.mpr ⟨kv2, hkv2, append_left_cancel_string p _ _ heq⟩)
      simp [List.filter_cons, hk, hrest]
    · have := ih hnd
      simp only [List.map_cons, List.filter_cons]
      simp [hk, this]

theorem eq_of_perm_of_length_le_one {α : Type} (l l' : List α) (h : l.Perm l')
    (hlen : l.length ≤ 1) : l = l' := by
  match l, hlen with
  | [], _ => exact (List.Perm.eq_nil h.symm).symm
  | [x], _ => exact (List.singleton_perm.mp h)

/-- The values under a name do not depend on the order in which a map with
distinct keys is visited. -/
theorem fieldValues_entries_perm (p key : String) (kvs kvs' : List (String × Any))
    (hperm : kvs.Perm kvs') (hnd : (kvs.map Prod.fst).Nodup) :
    fieldValues key (kvs.map fun kv => ⟨p ++ kv.1, AppendInterface kv.2⟩)
      = fieldValues key (kvs'.map fun kv => ⟨p ++ kv.1, AppendInterface kv.2⟩) := by
  unfold fieldValues
  congr 1
  exact eq_of_perm_of_length_le_one _ _ ((hperm.map _).filter _)
    (length_filter_entries_le_one p key kvs hnd)

theorem ExportSpan.annotationFieldsOf_sameInput (a b : trace.Annotation)
    (h : a.sameInput b) :
    (ExportSpan.annotationFieldsOf a).Perm (ExportSpan.annotationFieldsOf b) ∧
    (a.Attributes.keysDistinct → ∀ key,
      fieldValues key (ExportSpan.annotationFieldsOf a)
        = fieldValues key (ExportSpan.annotationFieldsOf b)) := by
  obtain ⟨_, hmsg, hperm⟩ := h
  unfold ExportSpan.annotationFieldsOf
  rw [← hmsg]
  exact ⟨hperm.map _, fun hnd key =>
    fieldValues_entries_perm ("annotations." ++ a.Message ++ ".") key _ _ hperm hnd⟩

theorem ExportSpan.annotations_sameInput (items items' : List trace.Annotation)
    (h : List.Forall₂ trace.Annotation.sameInput items items') :
    (items.flatMap ExportSpan.annotationFieldsOf).Perm
      (items'.flatMap ExportSpan.annotationFieldsOf) ∧
    ((∀ a ∈ items, a.Attributes.keysDistinct) → ∀ key,
      fieldValues key (items.flatMap ExportSpan.annotationFieldsOf)
        = fieldValues key (items'.flatMap ExportSpan.annotationFieldsOf)) := by
  induction h with
  | nil => exact ⟨List.Perm.refl _, fun _ _ => rfl⟩
  | cons hab _ ih =>
    obtain ⟨hp, hv⟩ := ExportSpan.annotationFieldsOf_sameInput _ _ hab
    refine ⟨?_, ?_⟩
    · simp only [List.flatMap_cons]
      exact hp.append ih.1
    · intro hnd key
      simp only [List.flatMap_cons, fieldValues_append]
      rw [hv (hnd _ (List.mem_cons_self _ _)) key,
        ih.2 (fun a ha => hnd a (List.mem_cons_of_mem _ ha)) key]

theorem ExportSpan.fixedFields_sameInput (v w : trace.SpanData) (h : v.sameInput w) :
    ExportSpan.fixedFields v = ExportSpan.fixedFields w := by
  obtain ⟨h1, h2, h3, h4, h5, h6, _, _⟩ := h
  simp only [ExportSpan.fixedFields, h1, h2, h3, h4, h5, h6]

theorem AppendInterface_of_supported (v : Any) (h : v.supported = true) :
    AppendInterface v = .iface v := by
  cases v with
  | float64 f =>
    simp only [Any.supported, Option.isNone_iff_eq_none] at h
    simp [AppendInterface, h]
  | _ => rfl

/-! ## Lemmas on the hexadecimal encoding -/

set_option maxRecDepth 100000 in
/-- The two digits of one byte: each is a lowercase hexadecimal digit that
decodes to its half of the byte, the halves rebuild the byte, and both digits
are `0` only for the zero byte. -/
theorem hex.byte_digits (v : Byte) :
    hex.fromHexChar (hex.hextable.getD (v.val >>> 4) '0') = some (v.val >>> 4) ∧
    hex.fromHexChar (hex.hextable.getD (v.val &&& 0x0f) '0') = some (v.val &&& 0x0f) ∧
    (Fin.ofNat (((v.val >>> 4) <<< 4) ||| (v.val &&& 0x0f)) : Byte) = v ∧
    hex.isLowerHex (hex.hextable.getD (v.val >>> 4) '0') = true ∧
    hex.isLowerHex (hex.hextable.getD (v.val &&& 0x0f) '0') = true ∧
    ((hex.hextable.getD (v.val >>> 4) '0' == '0'
        && hex.hextable.getD (v.val &&& 0x0f) '0' == '0') = (v == 0)) := by
  revert v; decide

theorem hex.length_Encode (src : List Byte) : (hex.Encode src).length = 2 * src.length := by
  induction src with
  | nil => rfl
  | cons v rest ih => simp only [hex.Encode, List.length_cons, ih]; omega

theorem hex.isLowerHex_Encode (src : List Byte) :
    ∀ c ∈ hex.Encode src, hex.isLowerHex c = true := by
  induction src with
  | nil => intro c hc; simp [hex.Encode] at hc
  | cons v rest ih =>
    intro c hc
    obtain ⟨_, _, _, h4, h5, _⟩ := hex.byte_digits v
    simp only [hex.Encode, List.mem_cons] at hc
    rcases hc with rfl | rfl | hc
    · exact h4
    · exact h5
    · exact ih c hc

theorem hex.Decode_Encode (src : List Byte) : hex.Decode (hex.Encode src) = some src := by
  induction src with
  | nil => rfl
  | cons v rest ih =>
    obtain ⟨h1, h2, h3, _⟩ := hex.byte_digits v
    simp only [hex.Encode, hex.Decode, h1, h2, ih, Option.map_some', h3]

theorem hex.all_zero_Encode (src : List Byte) :
    ((hex.Encode src).all fun c => c == '0') = src.all fun v => v == 0 := by
  induction src with
  | nil => rfl
  | cons v rest ih =>
    obtain ⟨_, _, _, _, _, h6⟩ := hex.byte_digits v
    simp only [hex.Encode, List.all_cons, ih, ← h6, Bool.and_assoc]

/-- The pattern `reZero` matches the encoding of a byte sequence exactly when
the sequence is not empty and all its bytes are zero. -/
theorem reZero.MatchString_Encode (src : List Byte) :
    reZero.MatchString (hex.EncodeToString src)
      = (!src.isEmpty && src.all fun v => v == 0) := by
  simp only [reZero.MatchString, hex.EncodeToString, hex.all_zero_Encode]
  cases src <;> rfl

/-- The pattern `reZero` matches the encoding of a span identifier exactly
when all eight bytes are zero. -/
theorem reZero.MatchString_SpanID (id : trace.SpanID) :
    reZero.MatchString (hex.EncodeToString id.bytes) = id.bytes.all fun v => v == 0 := by
  rw [reZero.MatchString_Encode]
  have hne : id.bytes.isEmpty = false := by
    rcases id with ⟨bytes, size⟩
    cases bytes with
    | nil => simp at size
    | cons _ _ => rfl
  simp [hne]

/-! ## Claims on `ExportView` -/

/-- C1, refuted: a snapshot of three rows whose second row holds a nil
payload gets one record; the one-row snapshot of the tests gets no record when
the level of the logger is disabled, and none when its view is nil. -/
theorem ExportView_fewer_records_than_rows :
    (nilPayloadViewData.Rows.length = 3 ∧
      (ExportView testExporter stampingDebug nilPayloadViewData 0).records.length = 1) ∧
    (nothingViewData.Rows.length = 1 ∧
      ExportView disabledExporter stampingDebug nothingViewData 0 = ⟨[], false, 1⟩) ∧
    (nilViewData.Rows.length = 1 ∧
      ExportView testExporter stampingDebug nilViewData 0 = ⟨[], true, 1⟩) := by
  decide

/-- C1, amended: for a well-formed snapshot (no nil view, row or payload)
exported while every call of `log()` returns a live event, `ExportView`
returns, writes exactly one record per row, the i-th record being the one the
loop body builds from the i-th row, and every record carries `name` = the view
name, `end` = the end time of the snapshot and the message `metric`; with no
rows nothing is written. -/
theorem ExportView_one_record_per_row (e : Exporter) (Debug : EventFn) (vd : view.Data)
    (n : Nat) (h : vd.wellFormed) (hlive : e.liveFor Debug n vd.Rows.length) :
    (ExportView e Debug vd n).panicked = false ∧
    (ExportView e Debug vd n).records.length = vd.Rows.length ∧
    (∀ (i : Nat) (row : Option view.Row), vd.Rows[i]? = some row →
      ∃ r v, (ExportView e Debug vd n).records[i]? = some r ∧
        ExportView.body e Debug vd (n + i) row = .ok (some r) ∧
        vd.View = some v ∧
        fieldValues "name" (e.fieldsSet Debug (n + i) r) = [.str v.Name] ∧
        fieldValues "end" (e.fieldsSet Debug (n + i) r) = [.time vd.End] ∧
        r.message = "metric") ∧
    (vd.Rows = [] → (ExportView e Debug vd n).records = []) := by
  have hno := ExportView.panics_of_wellFormed vd h
  refine ⟨?_, ?_, ?_, ?_⟩
  · rw [ExportView.eq_written]
    simp only [List.any_eq_false]
    intro row hrow
    simp [hno row hrow]
  · rw [ExportView.eq_written]
    exact (ExportView.written_getElem e Debug vd vd.Rows n hno hlive).1
  · intro i row hi
    obtain ⟨r, v, row', ev, hr, hv, hrow, hev, hreq, hset⟩ :=
      ExportView.record_at e Debug vd n h hlive i row hi
    refine ⟨r, v, hr, ?_, hv, ?_, ?_, by rw [hreq]⟩
    · rw [ExportView.body_eq, hno row (List.getElem?_mem hi)]
      simp [hrow, ExportView.record, hv, hev, hreq, EventPtr.append, EventPtr.Msg]
    · rw [hset]
      rcases row' with ⟨tags, d⟩
      rcases d with _ | d | d | d | d | k <;> try rcases d with _ | d
      all_goals simp [fieldValues, ExportView.rowFields, ExportView.kindFields]
    · rw [hset]
      rcases row' with ⟨tags, d⟩
      rcases d with _ | d | d | d | d | k <;> try rcases d with _ | d
      all_goals simp [fieldValues, ExportView.rowFields, ExportView.kindFields]
  · intro hnil
    rw [ExportView.eq_written, hnil]
    rfl

/-- C1, amended, at the snapshot of `TestMetrics`: one row, one record. -/
theorem ExportView_one_record_per_row_witness :
    nothingViewData.wellFormed ∧ testExporter.liveFor stampingDebug 0 1 ∧
    (ExportView testExporter stampingDebug nothingViewData 0).panicked = false ∧
    (ExportView testExporter stampingDebug nothingViewData 0).records.length = 1 :=
  ⟨by decide, by decide,
    (ExportView_one_record_per_row testExporter stampingDebug nothingViewData 0
      (by decide) (by decide)).1,
    (ExportView_one_record_per_row testExporter stampingDebug nothingViewData 0
      (by decide) (by decide)).2.1⟩

/-- C2: in a well-formed snapshot exported with live events, the record
written for a row of one of the four aggregation kinds holds, among the
numeric fields, exactly those of its kind with the payload values:
`distributionMin`, `distributionMax`, `distributionMean` for a distribution,
`count` for a count, `sum` for a sum, `last` for a last value. -/
theorem ExportView_numeric_fields_of_kind (e : Exporter) (Debug : EventFn) (vd : view.Data)
    (n : Nat) (h : vd.wellFormed) (hlive : e.liveFor Debug n vd.Rows.length)
    (i : Nat) (tags : List tag.Tag) :
    (∀ v : view.DistributionData,
      vd.Rows[i]? = some (some ⟨tags, .distribution (some v)⟩) →
      ∃ r, (ExportView e Debug vd n).records[i]? = some r ∧
        numericFields (e.fieldsSet Debug (n + i) r) =
          [⟨"distributionMin", .float64 v.Min⟩, ⟨"distributionMax", .float64 v.Max⟩,
            ⟨"distributionMean", .float64 v.Mean⟩]) ∧
    (∀ v : view.CountData, vd.Rows[i]? = some (some ⟨tags, .count (some v)⟩) →
      ∃ r, (ExportView e Debug vd n).records[i]? = some r ∧
        numericFields (e.fieldsSet Debug (n + i) r) = [⟨"count", .int64 v.Value⟩]) ∧
    (∀ v : view.SumData, vd.Rows[i]? = some (some ⟨tags, .sum (some v)⟩) →
      ∃ r, (ExportView e Debug vd n).records[i]? = some r ∧
        numericFields (e.fieldsSet Debug (n + i) r) = [⟨"sum", .float64 v.Value⟩]) ∧
    (∀ v : view.LastValueData, vd.Rows[i]? = some (some ⟨tags, .lastValue (some v)⟩) →
      ∃ r, (ExportView e Debug vd n).records[i]? = some r ∧
        numericFields (e.fieldsSet Debug (n + i) r) = [⟨"last", .float64 v.Value⟩]) := by
  refine ⟨?_, ?_, ?_, ?_⟩ <;>
  · intro v hi
    obtain ⟨r, _, row', _, hr, _, hrow, _, _, hset⟩ :=
      ExportView.record_at e Debug vd n h hlive i _ hi
    simp only [Option.some.injEq] at hrow
    subst hrow
    refine ⟨r, hr, ?_⟩
    rw [hset]
    simp [numericFields, numericKeys, ExportView.rowFields, ExportView.kindFields]

/-- C2, at the snapshot with one row of every kind. -/
theorem ExportView_numeric_fields_of_kind_witness :
    mixedViewData.wellFormed ∧ testExporter.liveFor stampingDebug 0 6 ∧
    (∃ r, (ExportView testExporter stampingDebug mixedViewData 0).records[0]? = some r ∧
      numericFields (testExporter.fieldsSet stampingDebug 0 r) =
        [⟨"distributionMin", .float64 ⟨1⟩⟩, ⟨"distributionMax", .float64 ⟨9⟩⟩,
          ⟨"distributionMean", .float64 ⟨4⟩⟩]) ∧
    (∃ r, (ExportView testExporter stampingDebug mixedViewData 0).records[1]? = some r ∧
      numericFields (testExporter.fieldsSet stampingDebug 1 r) = [⟨"count", .int64 2⟩]) :=
  ⟨by decide, by decide,
    (ExportView_numeric_fields_of_kind testExporter stampingDebug mixedViewData 0
      (by decide) (by decide) 0 _).1 ⟨3, ⟨1⟩, ⟨9⟩, ⟨4⟩, ⟨7⟩⟩ rfl,
    (ExportView_numeric_fields_of_kind testExporter stampingDebug mixedViewData 0
      (by decide) (by decide) 1 _).2.1 ⟨2⟩ rfl⟩

/-- C3: in a well-formed snapshot exported with live events, the `tags`
field of the record written for a row is the row's tag sequence without the
tags whose value is empty, order kept, each tag rendered as key name, colon,
value; for k tags of which m have an empty value it has k - m entries. -/
theorem ExportView_tags_without_empty (e : Exporter) (Debug : EventFn) (vd : view.Data)
    (n : Nat) (h : vd.wellFormed) (hlive : e.liveFor Debug n vd.Rows.length)
    (i : Nat) (row : view.Row) (hi : vd.Rows[i]? = some (some row)) :
    ∃ r tags, (ExportView e Debug vd n).records[i]? = some r ∧
      fieldValues "tags" (e.fieldsSet Debug (n + i) r) = [.strs tags] ∧
      tags = (row.Tags.filter fun t => t.Value ≠ "").map
        (fun t => t.Key.Name ++ ":" ++ t.Value) ∧
      tags.length = row.Tags.length - (row.Tags.filter fun t => t.Value = "").length := by
  obtain ⟨r, _, row', _, hr, _, hrow, _, _, hset⟩ :=
    ExportView.record_at e Debug vd n h hlive i _ hi
  simp only [Option.some.injEq] at hrow
  subst hrow
  refine ⟨r, _, hr, ?_, rfl, ?_⟩
  · rw [hset]
    rcases row with ⟨tags, d⟩
    rcases d with _ | v | v | v | v | k <;> try rcases v with _ | v
    all_goals simp [fieldValues, ExportView.rowFields, ExportView.kindFields, tagText]
  · rw [List.length_map]
    have hsplit := List.length_eq_length_filter_add (l := row.Tags) fun t => decide (t.Value = "")
    have hneg : (row.Tags.filter fun t => decide (t.Value ≠ ""))
        = row.Tags.filter fun t => !decide (t.Value = "") := by
      congr 1; funext t; simp
    rw [hneg]
    omega

/-- C3, at the first row of the mixed snapshot: four tags, two of them
empty, two entries. -/
theorem ExportView_tags_without_empty_witness :
    mixedViewData.wellFormed ∧ testExporter.liveFor stampingDebug 0 6 ∧
    ∃ r tags, (ExportView testExporter stampingDebug mixedViewData 0).records[0]? = some r ∧
      fieldValues "tags" (testExporter.fieldsSet stampingDebug 0 r) = [.strs tags] ∧
      tags = ["tag2:b", "tag4:d"] ∧ tags.length = 4 - 2 :=
  ⟨by decide, by decide,
    ExportView_tags_without_empty testExporter stampingDebug mixedViewData 0
      (by decide) (by decide) 0 _ rfl⟩

/-- C11: in a well-formed snapshot exported with live events, the exporter
sets the field `tags` on the record of every row, exactly once; for a row
without tags, or whose tag values are all empty, the field is there and its
value is the empty sequence. -/
theorem ExportView_tags_always_present (e : Exporter) (Debug : EventFn) (vd : view.Data)
    (n : Nat) (h : vd.wellFormed) (hlive : e.liveFor Debug n vd.Rows.length)
    (i : Nat) (row : view.Row) (hi : vd.Rows[i]? = some (some row)) :
    ∃ r tags, (ExportView e Debug vd n).records[i]? = some r ∧
      fieldValues "tags" (e.fieldsSet Debug (n + i) r) = [.strs tags] ∧
      (⟨"tags", .strs tags⟩ : Field) ∈ r.fields ∧
      (row.Tags = [] → tags = []) ∧
      ((∀ t ∈ row.Tags, t.Value = "") → tags = []) := by
  obtain ⟨r, _, row', ev, hr, _, hrow, _, hreq, hset⟩ :=
    ExportView.record_at e Debug vd n h hlive i _ hi
  simp only [Option.some.injEq] at hrow
  subst hrow
  refine ⟨r, (row.Tags.filter fun t => t.Value ≠ "").map tagText, hr, ?_, ?_, ?_, ?_⟩
  · rw [hset]
    rcases row with ⟨tags, d⟩
    rcases d with _ | v | v | v | v | k <;> try rcases v with _ | v
    all_goals simp [fieldValues, ExportView.rowFields, ExportView.kindFields]
  · rw [hreq]
    simp [ExportView.rowFields]
  · intro hnil
    simp [hnil]
  · intro hall
    rw [List.map_eq_nil_iff, List.filter_eq_nil_iff]
    intro t ht
    simp [hall t ht]

/-- C11, at the rows of the mixed snapshot whose only tag value is empty
(row 2) and without tags (row 3). -/
theorem ExportView_tags_always_present_witness :
    mixedViewData.wellFormed ∧ testExporter.liveFor stampingDebug 0 6 ∧
    (∃ r, (ExportView testExporter stampingDebug mixedViewData 0).records[2]? = some r ∧
      fieldValues "tags" (testExporter.fieldsSet stampingDebug 2 r) = [.strs []]) ∧
    (∃ r, (ExportView testExporter stampingDebug mixedViewData 0).records[3]? = some r ∧
      fieldValues "tags" (testExporter.fieldsSet stampingDebug 3 r) = [.strs []]) := by
  refine ⟨by decide, by decide, ?_, ?_⟩
  · obtain ⟨r, tags, hr, hv, _, _, hempty⟩ :=
      ExportView_tags_always_present testExporter stampingDebug mixedViewData 0
        (by decide) (by decide) 2 _ rfl
    exact ⟨r, hr, by rw [hv, hempty (by decide)]⟩
  · obtain ⟨r, tags, hr, hv, _, hnil, _⟩ :=
      ExportView_tags_always_present testExporter stampingDebug mixedViewData 0
        (by decide) (by decide) 3 _ rfl
    exact ⟨r, hr, by rw [hv, hnil rfl]⟩

/-- C10, refuted: in a snapshot whose first row holds a nil payload and
whose second row is unset, the call panics at the first row and the unset row
gets no record; and a lone unset row gets no record when the level of the
logger is disabled. -/
theorem ExportView_unset_row_without_record :
    nilThenUnsetViewData.Rows
      = [some ⟨[], .count none⟩, some ⟨[⟨⟨"tag1"⟩, "a"⟩], .unset⟩] ∧
    ExportView testExporter stampingDebug nilThenUnsetViewData 0 = ⟨[], true, 1⟩ ∧
    ExportView disabledExporter stampingDebug
      { nilThenUnsetViewData with Rows := [some ⟨[⟨⟨"tag1"⟩, "a"⟩], .unset⟩] } 0
      = ⟨[], false, 1⟩ := by
  decide

/-- C10, amended: a row whose data is unset or of an unknown kind gets its
record, with the message `metric`, on which the exporter sets `name`, `end`
and `tags` and nothing else, so none of the numeric fields, whenever the view
is not nil, the body panics on no row before it and the call of `log()` made
for it returns a live event; when the calls made for the rows before it return
live events too, the record stands at the position of the row. -/
theorem ExportView_unknown_kind_no_numeric (e : Exporter) (Debug : EventFn) (vd : view.Data)
    (n : Nat) (before after : List (Option view.Row)) (row : view.Row) (v : view.View)
    (hrows : vd.Rows = before ++ some row :: after) (hview : vd.View = some v)
    (hbefore : ∀ p ∈ before, view.rowOk p = true)
    (hlive : (e.log Debug (n + before.length)).isSome = true)
    (hk : row.Data = .unset ∨ ∃ k, row.Data = .other k) :
    ∃ r, r ∈ (ExportView e Debug vd n).records ∧
      ExportView.body e Debug vd (n + before.length) (some row) = .ok (some r) ∧
      r.message = "metric" ∧
      e.fieldsSet Debug (n + before.length) r =
        [⟨"name", .str v.Name⟩, ⟨"end", .time vd.End⟩,
          ⟨"tags", .strs ((row.Tags.filter fun t => t.Value ≠ "").map
            fun t => t.Key.Name ++ ":" ++ t.Value)⟩] ∧
      numericFields (e.fieldsSet Debug (n + before.length) r) = [] ∧
      (e.liveFor Debug n before.length →
        (ExportView e Debug vd n).records[before.length]? = some r) := by
  have hkind : ExportView.kindFields row.Data = [] := by
    rcases hk with hk | ⟨k, hk⟩ <;> rw [hk] <;> rfl
  have hpop : row.Data.populated = true := by
    rcases hk with hk | ⟨k, hk⟩ <;> rw [hk] <;> rfl
  have hno : ∀ p ∈ before, ExportView.panics vd p = false := by
    intro p hp
    simp [ExportView.panics, hview, hbefore p hp]
  have hrow : ExportView.panics vd (some row) = false := by
    simp [ExportView.panics, hview, view.rowOk, hpop]
  obtain ⟨ev, hev⟩ := Option.isSome_iff_exists.mp hlive
  have hrec : ExportView.record e Debug vd (n + before.length) (some row)
      = some ⟨ev.fields ++ ExportView.rowFields v.Name vd.End row, "metric"⟩ := by
    simp [ExportView.record, hview, hev, EventPtr.append, EventPtr.Msg]
  have hwritten : ExportView.written e Debug vd vd.Rows n
      = ExportView.written e Debug vd before n
        ++ (⟨ev.fields ++ ExportView.rowFields v.Name vd.End row, "metric"⟩
          :: ExportView.written e Debug vd after (n + before.length + 1)) := by
    rw [hrows, (ExportView.written_append e Debug vd before _ n hno).1, ExportView.written,
      hrow, hrec]
    rfl
  have hfields : ExportView.rowFields v.Name vd.End row
      = [⟨"name", .str v.Name⟩, ⟨"end", .time vd.End⟩,
          ⟨"tags", .strs ((row.Tags.filter fun t => t.Value ≠ "").map
            fun t => t.Key.Name ++ ":" ++ t.Value)⟩] := by
    simp [ExportView.rowFields, hkind, tagText]
  refine ⟨⟨ev.fields ++ ExportView.rowFields v.Name vd.End row, "metric"⟩,
    ?_, ?_, rfl, ?_, ?_, ?_⟩
  · rw [ExportView.eq_written, hwritten]
    simp
  · rw [ExportView.body_eq, hrow, hrec]
    rfl
  · rw [Exporter.fieldsSet_of_log e Debug _ ev hev, hfields]
  · rw [Exporter.fieldsSet_of_log e Debug _ ev hev, hfields]
    simp [numericFields, numericKeys]
  · intro hliveBefore
    have hlen := (ExportView.written_getElem e Debug vd before n hno hliveBefore).1
    rw [ExportView.eq_written, hwritten, List.getElem?_append_right (by omega), hlen]
    simp

/-- C10, amended, at the unset row and the row of unknown kind of the mixed
snapshot. -/
theorem ExportView_unknown_kind_no_numeric_witness :
    (∃ r, (ExportView testExporter stampingDebug mixedViewData 0).records[4]? = some r ∧
      r.message = "metric" ∧
      testExporter.fieldsSet stampingDebug 4 r =
        [⟨"name", .str "test/mixed_view"⟩, ⟨"end", .time ⟨5⟩⟩, ⟨"tags", .strs ["tag1:a"]⟩] ∧
      numericFields (testExporter.fieldsSet stampingDebug 4 r) = []) ∧
    (∃ r, (ExportView testExporter stampingDebug mixedViewData 0).records[5]? = some r ∧
      r.message = "metric" ∧
      testExporter.fieldsSet stampingDebug 5 r =
        [⟨"name", .str "test/mixed_view"⟩, ⟨"end", .time ⟨5⟩⟩, ⟨"tags", .strs ["tag2:b"]⟩] ∧
      numericFields (testExporter.fieldsSet stampingDebug 5 r) = []) := by
  constructor
  · obtain ⟨r, _, _, hmsg, hset, hnum, hat⟩ :=
      ExportView_unknown_kind_no_numeric testExporter stampingDebug mixedViewData 0
        (mixedViewData.Rows.take 4) [some ⟨[⟨⟨"tag2"⟩, "b"⟩], .other 7⟩]
        ⟨[⟨⟨"tag1"⟩, "a"⟩], .unset⟩ ⟨"test/mixed_view"⟩ rfl rfl (by decide) (by decide)
        (Or.inl rfl)
    exact ⟨r, hat (by decide), hmsg, hset, hnum⟩
  · obtain ⟨r, _, _, hmsg, hset, hnum, hat⟩ :=
      ExportView_unknown_kind_no_numeric testExporter stampingDebug mixedViewData 0
        (mixedViewData.Rows.take 5) []
        ⟨[⟨⟨"tag2"⟩, "b"⟩], .other 7⟩ ⟨"test/mixed_view"⟩ rfl rfl (by decide) (by decide)
        (Or.inr ⟨7, rfl⟩)
    exact ⟨r, hat (by decide), hmsg, hset, hnum⟩

/-- C12, refuted at a snapshot of three rows whose second row holds a nil
`*view.CountData`: the call panics there, one record is written instead of
three, and the body writes no record for that row. -/
theorem ExportView_nil_payload_panics :
    nilPayloadViewData.Rows.length = 3 ∧
    (ExportView testExporter stampingDebug nilPayloadViewData 0).panicked = true ∧
    (ExportView testExporter stampingDebug nilPayloadViewData 0).records.length = 1 ∧
    ExportView.body testExporter stampingDebug nilPayloadViewData 1
      (some ⟨[⟨⟨"tag1"⟩, "b"⟩], .count none⟩) = .panic := by
  decide

/-- C12, amended: `ExportView` returns exactly for the well-formed
snapshots: no nil row, no row with a nil pointer of a known data kind and, if
there is a row, no nil view.  It then has called `log()` once per row, and has
written one record per row when all these calls return a live event, and none
when they all return a nil event.  Else it panics on the first row that is
nil, or holds a nil payload, or has its view nil: the body hands no record to
the sink for that row, and the call wrote at most one record for each row
before it. -/
theorem ExportView_completes_iff_wellFormed (e : Exporter) (Debug : EventFn)
    (vd : view.Data) (n : Nat) :
    ((ExportView e Debug vd n).panicked = false ↔ vd.wellFormed) ∧
    (vd.wellFormed → (ExportView e Debug vd n).calls = n + vd.Rows.length) ∧
    (vd.wellFormed → e.liveFor Debug n vd.Rows.length →
      (ExportView e Debug vd n).records.length = vd.Rows.length) ∧
    (vd.wellFormed → (∀ j, j < vd.Rows.length → e.log Debug (n + j) = none) →
      (ExportView e Debug vd n).records = []) ∧
    (ExportView e Debug vd n).records.length
      ≤ (vd.Rows.takeWhile fun row => !ExportView.panics vd row).length ∧
    (∀ (row : Option view.Row) (k : Nat),
      vd.View = none ∨ row = none ∨ (∃ r, row = some r ∧ r.Data.populated = false) →
      ExportView.body e Debug vd k row = .panic) := by
  refine ⟨?_, ?_, ?_, ?_, ?_, ?_⟩
  · rw [ExportView.eq_written, ExportView.wellFormed_iff]
    simp only [List.any_eq_false]
    constructor
    · intro hall row hrow
      simpa using hall row hrow
    · intro hall row hrow
      simp [hall row hrow]
  · intro h
    rw [ExportView.eq_written,
      ExportView.visited_of_no_panic vd vd.Rows (ExportView.panics_of_wellFormed vd h)]
  · intro h hlive
    rw [ExportView.eq_written]
    exact (ExportView.written_getElem e Debug vd vd.Rows n
      (ExportView.panics_of_wellFormed vd h) hlive).1
  · intro _ hnil
    rw [ExportView.eq_written]
    exact ExportView.written_of_disabled e Debug vd vd.Rows n hnil
  · rw [ExportView.eq_written]
    exact ExportView.length_written_le e Debug vd vd.Rows n
  · intro row k hbad
    have hp : ExportView.panics vd row = true := by
      rcases hbad with h | h | ⟨r, h, hr⟩
      · simp [ExportView.panics, h]
      · simp [ExportView.panics, h, view.rowOk]
      · simp [ExportView.panics, h, view.rowOk, hr]
    rw [ExportView.body_eq, hp]
    rfl

/-- C17, refuted: with `R1` one row that holds a nil payload and `R2` the
row of `TestMetrics`, nothing is written for `R1 ++ R2`, while the call on `R2`
alone writes a record. -/
theorem ExportView_append_after_panic :
    (ExportView testExporter stampingDebug
      { nothingViewData with Rows := [some ⟨[], .count none⟩] ++ nothingViewData.Rows }
      0).records = [] ∧
    (ExportView testExporter stampingDebug
      { nothingViewData with Rows := [some ⟨[], .count none⟩] } 0).records = [] ∧
    (ExportView testExporter stampingDebug nothingViewData 1).records.length = 1 ∧
    (ExportView testExporter stampingDebug
      { nothingViewData with Rows := [some ⟨[], .count none⟩] ++ nothingViewData.Rows }
      0).records
      ≠ (ExportView testExporter stampingDebug
          { nothingViewData with Rows := [some ⟨[], .count none⟩] } 0).records
        ++ (ExportView testExporter stampingDebug nothingViewData 1).records := by
  decide

/-- C17, amended: when the body panics on no row of `R1` (no nil row or nil
payload in `R1`, and the view not nil unless `R1` is empty), the call on the
rows `R1 ++ R2` does what the call on `R1` followed by the call on `R2` does:
it writes the records of the first and then those of the second, and ends as
the second does; the body reads the snapshot, besides its own row, only
through the view and the end time. -/
theorem ExportView_append_rows (e : Exporter) (Debug : EventFn) (vd : view.Data) (n : Nat)
    (R1 R2 : List (Option view.Row))
    (hrows : ∀ row ∈ R1, view.rowOk row = true)
    (hview : R1 = [] ∨ vd.View.isSome = true) :
    (ExportView e Debug { vd with Rows := R1 } n).panicked = false ∧
    (ExportView e Debug { vd with Rows := R1 } n).calls = n + R1.length ∧
    ExportView e Debug { vd with Rows := R1 ++ R2 } n
      = ⟨(ExportView e Debug { vd with Rows := R1 } n).records
          ++ (ExportView e Debug { vd with Rows := R2 }
              (ExportView e Debug { vd with Rows := R1 } n).calls).records,
        (ExportView e Debug { vd with Rows := R2 }
          (ExportView e Debug { vd with Rows := R1 } n).calls).panicked,
        (ExportView e Debug { vd with Rows := R2 }
          (ExportView e Debug { vd with Rows := R1 } n).calls).calls⟩ ∧
    (∀ (vd' : view.Data) (k : Nat) (row : Option view.Row),
      vd.View = vd'.View → vd.End = vd'.End →
      ExportView.body e Debug vd k row = ExportView.body e Debug vd' k row) := by
  have hno : ∀ row ∈ R1, ExportView.panics vd row = false := by
    intro row hrow
    have hv : vd.View.isSome = true := by
      rcases hview with hnil | hv
      · rw [hnil] at hrow; simp at hrow
      · exact hv
    simp [ExportView.panics, hv, hrows row hrow]
  have hany : R1.any (ExportView.panics vd) = false := by
    rw [List.any_eq_false]
    intro row hrow
    simp [hno row hrow]
  have hE : ∀ (R : List (Option view.Row)) (k : Nat),
      ExportView e Debug { vd with Rows := R } k
        = ⟨ExportView.written e Debug vd R k, R.any (ExportView.panics vd),
          k + ExportView.visited vd R⟩ := by
    intro R k
    rw [ExportView.eq_written,
      (ExportView.written_congr e Debug { vd with Rows := R } vd rfl rfl R k).1,
      (ExportView.written_congr e Debug { vd with Rows := R } vd rfl rfl R k).2,
      ExportView.panics_congr { vd with Rows := R } vd rfl]
  have hvis := ExportView.visited_of_no_panic vd R1 hno
  obtain ⟨hw, hv⟩ := ExportView.written_append e Debug vd R1 R2 n hno
  refine ⟨?_, ?_, ?_, fun vd' k row h1 h2 => ExportView.body_congr e Debug vd vd' h1 h2 k row⟩
  · rw [hE]
    exact hany
  · rw [hE, hvis]
  · rw [hE, hE R1 n, hE R2, hw, hv, hvis, List.any_append, hany, Bool.false_or]
    simp only [Outcome.mk.injEq, true_and]
    omega

/-- C17, amended, at the mixed snapshot split after its second row, the
default logger stamping each event with the time of its call. -/
theorem ExportView_append_rows_witness :
    (ExportView defaultExporter stampingDebug mixedViewData 0).records
      = (ExportView defaultExporter stampingDebug
          { mixedViewData with Rows := mixedViewData.Rows.take 2 } 0).records
        ++ (ExportView defaultExporter stampingDebug
            { mixedViewData with Rows := mixedViewData.Rows.drop 2 } 2).records :=
  congrArg Outcome.records
    (ExportView_append_rows defaultExporter stampingDebug mixedViewData 0
      (mixedViewData.Rows.take 2) (mixedViewData.Rows.drop 2) (by decide) (Or.inr rfl)).2.2.1

/-! ## Claims on `ExportSpan` -/

/-- C4: on the record it writes (the event of `log()` being live),
`ExportSpan` sets `parentSpanId` exactly when the parent identifier
has a non-zero byte; the value is then the encoding of the identifier, 16
characters, all of them lowercase hexadecimal digits, and never a run of `0`
only. -/
theorem ExportSpan_parentSpanId_iff_nonzero (e : Exporter) (Debug : EventFn)
    (vd : trace.SpanData) (n : Nat) (hlive : (e.log Debug n).isSome = true) :
    ∃ r, ExportSpan e Debug vd n = ⟨[r], false, n + 1⟩ ∧
      ((∃ b ∈ vd.ParentSpanID.bytes, b ≠ 0) →
        fieldValues "parentSpanId" (e.fieldsSet Debug n r)
          = [.str (hex.EncodeToString vd.ParentSpanID.bytes)]) ∧
      ((∀ b ∈ vd.ParentSpanID.bytes, b = 0) →
        fieldValues "parentSpanId" (e.fieldsSet Debug n r) = []) ∧
      (hex.EncodeToString vd.ParentSpanID.bytes).length = 16 ∧
      (∀ c ∈ (hex.EncodeToString vd.ParentSpanID.bytes).data, hex.isLowerHex c = true) ∧
      (∀ s, Value.str s ∈ fieldValues "parentSpanId" (e.fieldsSet Debug n r) →
        ∃ c ∈ s.data, c ≠ '0') := by
  obtain ⟨r, hr, _, hf⟩ := ExportSpan.fieldValues_fixed e Debug vd n hlive "parentSpanId" (by decide)
  have hfix : fieldValues "parentSpanId" (ExportSpan.fixedFields vd)
      = if vd.ParentSpanID.bytes.all (fun v => v == 0) then []
        else [.str (hex.EncodeToString vd.ParentSpanID.bytes)] := by
    simp only [ExportSpan.fixedFields, reZero.MatchString_SpanID]
    cases vd.ParentSpanID.bytes.all (fun v => v == 0) <;> simp [fieldValues]
  rw [hfix] at hf
  refine ⟨r, hr, ?_, ?_, ?_, ?_, ?_⟩
  · rintro ⟨b, hb, hne⟩
    have hall : vd.ParentSpanID.bytes.all (fun v => v == 0) = false := by
      rw [List.all_eq_false]
      exact ⟨b, hb, by simpa using hne⟩
    simp [hf, hall]
  · intro hzero
    have hall : vd.ParentSpanID.bytes.all (fun v => v == 0) = true := by
      rw [List.all_eq_true]
      intro b hb
      simpa using hzero b hb
    simp [hf, hall]
  · simp [hex.EncodeToString, hex.length_Encode, vd.ParentSpanID.size]
  · exact hex.isLowerHex_Encode _
  · intro s hs
    rw [hf] at hs
    by_cases hall : vd.ParentSpanID.bytes.all (fun v => v == 0) = true
    · simp [hall] at hs
    · simp only [hall, Bool.false_eq_true, if_false, List.mem_singleton, Value.str.injEq] at hs
      subst hs
      have hm := reZero.MatchString_SpanID vd.ParentSpanID
      rw [Bool.not_eq_true] at hall
      rw [hall] at hm
      simp only [reZero.MatchString, Bool.and_eq_false_iff, Bool.not_eq_false',
        List.all_eq_false] at hm
      rcases hm with hm | ⟨c, hc, hne⟩
      · have hlen : (hex.EncodeToString vd.ParentSpanID.bytes).data.length = 16 := by
          simp [hex.EncodeToString, hex.length_Encode, vd.ParentSpanID.size]
        rw [List.isEmpty_iff] at hm
        rw [hm] at hlen
        simp at hlen
      · exact ⟨c, hc, by simpa using hne⟩

set_option maxRecDepth 100000 in
/-- C4, at a child span, whose parent identifier ends in `01 00`, and at the
root span of `TestTrace`, whose parent identifier is zero. -/
theorem ExportSpan_parentSpanId_iff_nonzero_witness :
    (testExporter.log stampingDebug 0).isSome = true ∧
    (∃ r, ExportSpan testExporter stampingDebug childSpan 0 = ⟨[r], false, 1⟩ ∧
      fieldValues "parentSpanId" (testExporter.fieldsSet stampingDebug 0 r)
        = [.str "0000000000000100"]) ∧
    (∃ r, ExportSpan testExporter stampingDebug fooSpan 0 = ⟨[r], false, 1⟩ ∧
      fieldValues "parentSpanId" (testExporter.fieldsSet stampingDebug 0 r) = []) := by
  refine ⟨rfl, ?_, ?_⟩
  · obtain ⟨r, hr, hset, _⟩ :=
      ExportSpan_parentSpanId_iff_nonzero testExporter stampingDebug childSpan 0 rfl
    exact ⟨r, hr, hset ⟨1, by decide, by decide⟩⟩
  · obtain ⟨r, hr, _, hnone, _⟩ :=
      ExportSpan_parentSpanId_iff_nonzero testExporter stampingDebug fooSpan 0 rfl
    exact ⟨r, hr, hnone (by decide)⟩

/-- C5, refuted: with a logger whose level is disabled, `log()` returns a
nil event and `ExportSpan` writes no record for the span of `TestTrace`. -/
theorem ExportSpan_disabled_no_record :
    disabledExporter.log stampingDebug 0 = none ∧
    ExportSpan disabledExporter stampingDebug fooSpan 0 = ⟨[], false, 1⟩ := by
  decide

/-- C5, amended: `ExportSpan` always returns, after one call of `log()`.
When that call returns a live event it has written exactly one record, with
the message `trace`, on which it has set `span`, `statusMessage` and
`statusCode` once each, to the span's name, status message and status code;
when it returns a nil event it has written none. -/
theorem ExportSpan_one_trace_record (e : Exporter) (Debug : EventFn) (vd : trace.SpanData)
    (n : Nat) :
    ((e.log Debug n).isSome = true →
      ∃ r, ExportSpan e Debug vd n = ⟨[r], false, n + 1⟩ ∧
        r.message = "trace" ∧
        fieldValues "span" (e.fieldsSet Debug n r) = [.str vd.Name] ∧
        fieldValues "statusMessage" (e.fieldsSet Debug n r) = [.str vd.Status.Message] ∧
        fieldValues "statusCode" (e.fieldsSet Debug n r) = [.int32 vd.Status.Code]) ∧
    (e.log Debug n = none → ExportSpan e Debug vd n = ⟨[], false, n + 1⟩) ∧
    (ExportSpan e Debug vd n).panicked = false ∧
    (ExportSpan e Debug vd n).calls = n + 1 ∧
    (ExportSpan e Debug vd n).records.length ≤ 1 := by
  refine ⟨?_, ExportSpan.of_disabled e Debug vd n, ?_, ?_, ?_⟩
  · intro hlive
    obtain ⟨r, hr, hmsg, h1⟩ :=
      ExportSpan.fieldValues_fixed e Debug vd n hlive "span" (by decide)
    obtain ⟨r2, hr2, _, h2⟩ :=
      ExportSpan.fieldValues_fixed e Debug vd n hlive "statusMessage" (by decide)
    obtain ⟨r3, hr3, _, h3⟩ :=
      ExportSpan.fieldValues_fixed e Debug vd n hlive "statusCode" (by decide)
    have e2 : r2 = r := by rw [hr] at hr2; simpa using hr2.symm
    have e3 : r3 = r := by rw [hr] at hr3; simpa using hr3.symm
    subst e2 e3
    refine ⟨_, hr, hmsg, ?_, ?_, ?_⟩
    · rw [h1]; simp only [ExportSpan.fixedFields]; split <;> simp [fieldValues]
    · rw [h2]; simp only [ExportSpan.fixedFields]; split <;> simp [fieldValues]
    · rw [h3]; simp only [ExportSpan.fixedFields]; split <;> simp [fieldValues]
  · rw [ExportSpan.eq_record]
  · rw [ExportSpan.eq_record]
  · rw [ExportSpan.eq_record]
    cases e.log Debug n <;> simp

/-- C6: on the record it writes (the event of `log()` being live),
`ExportSpan` always sets `traceId` and `spanId`, once each, to
the encodings of the trace and span identifiers: strings of 32 and 16
characters, every character one of `0-9a-f`, which `hex.DecodeString` turns
back into the 16 and 8 bytes of the identifiers. -/
theorem ExportSpan_traceId_spanId_hex (e : Exporter) (Debug : EventFn)
    (vd : trace.SpanData) (n : Nat) (hlive : (e.log Debug n).isSome = true) :
    ∃ r t s, ExportSpan e Debug vd n = ⟨[r], false, n + 1⟩ ∧
      fieldValues "traceId" (e.fieldsSet Debug n r) = [.str t] ∧
      fieldValues "spanId" (e.fieldsSet Debug n r) = [.str s] ∧
      t = hex.EncodeToString vd.SpanContext.TraceID.bytes ∧
      s = hex.EncodeToString vd.SpanContext.SpanID.bytes ∧
      t.length = 32 ∧ s.length = 16 ∧
      (∀ c ∈ t.data, hex.isLowerHex c = true) ∧
      (∀ c ∈ s.data, hex.isLowerHex c = true) ∧
      hex.DecodeString t = some vd.SpanContext.TraceID.bytes ∧
      hex.DecodeString s = some vd.SpanContext.SpanID.bytes := by
  obtain ⟨r, hr, _, h1⟩ := ExportSpan.fieldValues_fixed e Debug vd n hlive "traceId" (by decide)
  obtain ⟨r2, hr2, _, h2⟩ := ExportSpan.fieldValues_fixed e Debug vd n hlive "spanId" (by decide)
  have e2 : r2 = r := by rw [hr] at hr2; simpa using hr2.symm
  subst e2
  refine ⟨_, _, _, hr, ?_, ?_, rfl, rfl, ?_, ?_, ?_, ?_, ?_, ?_⟩
  · rw [h1]; simp only [ExportSpan.fixedFields]; split <;> simp [fieldValues]
  · rw [h2]; simp only [ExportSpan.fixedFields]; split <;> simp [fieldValues]
  · simp [hex.EncodeToString, hex.length_Encode, vd.SpanContext.TraceID.size]
  · simp [hex.EncodeToString, hex.length_Encode, vd.SpanContext.SpanID.size]
  · exact hex.isLowerHex_Encode _
  · exact hex.isLowerHex_Encode _
  · exact hex.Decode_Encode _
  · exact hex.Decode_Encode _

/-- C6, at the span of `TestTrace`. -/
theorem ExportSpan_traceId_spanId_hex_witness :
    (testExporter.log stampingDebug 0).isSome = true ∧
    ∃ r, ExportSpan testExporter stampingDebug fooSpan 0 = ⟨[r], false, 1⟩ ∧
      fieldValues "traceId" (testExporter.fieldsSet stampingDebug 0 r)
        = [.str "0102030405060708090a0b0c0d0e0f10"] ∧
      fieldValues "spanId" (testExporter.fieldsSet stampingDebug 0 r)
        = [.str "00000000000000ab"] ∧
      hex.DecodeString "00000000000000ab" = some [0, 0, 0, 0, 0, 0, 0, 171] := by
  obtain ⟨r, t, s, hr, ht, hs, rfl, rfl, _, _, _, _, _, hdec⟩ :=
    ExportSpan_traceId_spanId_hex testExporter stampingDebug fooSpan 0 rfl
  exact ⟨rfl, r, hr, ht, hs, hdec⟩

/-- C7, refuted at a span whose attribute `ratio` is a NaN: the field
`attributes.ratio` holds the text of a marshaling error, and no field of the
record holds the NaN. -/
theorem ExportSpan_NaN_attribute_not_verbatim :
    nanSpan.Attributes = some [("ratio", .float64 nan)] ∧
    ∃ r, ExportSpan testExporter stampingDebug nanSpan 0 = ⟨[r], false, 1⟩ ∧
      fieldValues "attributes.ratio" (testExporter.fieldsSet stampingDebug 0 r)
        = [.str "marshaling error: json: unsupported value: NaN"] ∧
      (⟨"attributes.ratio", .iface (.float64 nan)⟩ : Field) ∉ r.fields :=
  ⟨rfl, _, rfl, by decide, by decide⟩

/-- C7, amended: on the record it writes (the event of `log()` being
live), `ExportSpan` sets for every entry `(k, v)` of the span's attribute map
the field `attributes.` ++ k: to `v` itself when `v` is a boolean, a string, an
integer or a float other than NaN and the infinities, and to the text
`marshaling error: json: unsupported value: ` followed by `NaN`, `+Inf` or
`-Inf` when `v` is such a float.  The fields whose name starts with
`attributes.` are exactly these, one per entry, and, the keys of a map being
distinct, the field of a key holds the value of that key and no other. -/
theorem ExportSpan_attribute_fields (e : Exporter) (Debug : EventFn) (vd : trace.SpanData)
    (n : Nat) (kvs : List (String × Any)) (hmap : vd.Attributes = some kvs)
    (hlive : (e.log Debug n).isSome = true) :
    ∃ r, ExportSpan e Debug vd n = ⟨[r], false, n + 1⟩ ∧
      (∀ k v, (k, v) ∈ kvs → v.supported = true →
        (⟨"attributes." ++ k, .iface v⟩ : Field) ∈ e.fieldsSet Debug n r) ∧
      (∀ k f text, (k, Any.float64 f) ∈ kvs → f.unsupported = some text →
        (⟨"attributes." ++ k,
          .str ("marshaling error: json: unsupported value: " ++ text)⟩ : Field)
          ∈ e.fieldsSet Debug n r) ∧
      (e.fieldsSet Debug n r).filter (keyStartsWith "attributes.")
        = kvs.map (fun kv => ⟨"attributes." ++ kv.1, AppendInterface kv.2⟩) ∧
      ((∀ kv ∈ kvs, kv.2.supported = true) →
        (e.fieldsSet Debug n r).filter (keyStartsWith "attributes.")
          = kvs.map (fun kv => ⟨"attributes." ++ kv.1, .iface kv.2⟩)) ∧
      ((kvs.map Prod.fst).Nodup → ∀ k v, (k, v) ∈ kvs → v.supported = true →
        fieldValues ("attributes." ++ k) (e.fieldsSet Debug n r) = [.iface v]) := by
  obtain ⟨r, hr, _, hset⟩ := ExportSpan.of_live e Debug vd n hlive
  have hattr : ExportSpan.attributeFields vd
      = kvs.map (fun kv => ⟨"attributes." ++ kv.1, AppendInterface kv.2⟩) := by
    simp [ExportSpan.attributeFields, hmap, trace.Attributes.range]
  have hfilter : (e.fieldsSet Debug n r).filter (keyStartsWith "attributes.")
      = kvs.map (fun kv => ⟨"attributes." ++ kv.1, AppendInterface kv.2⟩) := by
    rw [hset, (ExportSpan.filter_loops vd).1, hattr]
  have hmem : ∀ k v, (k, v) ∈ kvs →
      (⟨"attributes." ++ k, AppendInterface v⟩ : Field) ∈ e.fieldsSet Debug n r := by
    intro k v hkv
    rw [hset, hattr]
    apply List.mem_append_right
    apply List.mem_append_right
    exact List.mem_map.mpr ⟨(k, v), hkv, rfl⟩
  refine ⟨r, hr, ?_, ?_, hfilter, ?_, ?_⟩
  · intro k v hkv hsup
    rw [← AppendInterface_of_supported v hsup]
    exact hmem k v hkv
  · intro k f text hkv hbad
    have := hmem k (.float64 f) hkv
    simpa [AppendInterface, hbad] using this
  · intro hall
    rw [hfilter]
    apply List.map_congr_left
    intro kv hkv
    rw [AppendInterface_of_supported kv.2 (hall kv hkv)]
  · intro hnd k v hkv hsup
    have hpre : "attributes.".data.isPrefixOf ("attributes." ++ k).data = true := by
      rw [String.data_append]
      exact List.isPrefixOf_iff_prefix.mpr (List.prefix_append _ _)
    rw [hset, fieldValues_append, fieldValues_append,
      fieldValues_eq_nil_of_keyStartsWith "attributes." _ _
        (fun f hf => (ExportSpan.fixed_not_loop_named vd f hf).1) hpre,
      fieldValues_eq_nil_of_keyStartsWith "attributes." _ _
        (fun f hf => (ExportSpan.annotation_keys vd f hf).1) hpre, hattr,
      ← AppendInterface_of_supported v hsup]
    exact fieldValues_of_entries "attributes." _ hnd k v hkv

/-- C7, amended, at the span of `TestTrace` and its four attributes. -/
theorem ExportSpan_attribute_fields_witness :
    fooSpan.Attributes
      = some [("key1", .bool false), ("key2", .bool true), ("key3", .string "hello"),
          ("key4", .string "hello")] ∧
    (testExporter.log stampingDebug 0).isSome = true ∧
    ∃ r, ExportSpan testExporter stampingDebug fooSpan 0 = ⟨[r], false, 1⟩ ∧
      (testExporter.fieldsSet stampingDebug 0 r).filter (keyStartsWith "attributes.")
        = [⟨"attributes.key1", .iface (.bool false)⟩, ⟨"attributes.key2", .iface (.bool true)⟩,
            ⟨"attributes.key3", .iface (.string "hello")⟩,
            ⟨"attributes.key4", .iface (.string "hello")⟩] ∧
      fieldValues "attributes.key3" (testExporter.fieldsSet stampingDebug 0 r)
        = [.iface (.string "hello")] := by
  obtain ⟨r, hr, _, _, _, hfilter, hval⟩ :=
    ExportSpan_attribute_fields testExporter stampingDebug fooSpan 0 _ rfl rfl
  exact ⟨rfl, rfl, r, hr, hfilter (by decide),
    hval (by decide) "key3" (.string "hello") (by decide) rfl⟩

/-- C8, refuted at a span with an annotation `limit` whose attribute `max`
is plus infinity: the field `annotations.limit.max` holds the text of a
marshaling error, and no field of the record holds the infinity. -/
theorem ExportSpan_Inf_annotation_not_verbatim :
    infSpan.Annotations = [⟨⟨11⟩, "limit", some [("max", .float64 posInf)]⟩] ∧
    ∃ r, ExportSpan testExporter stampingDebug infSpan 0 = ⟨[r], false, 1⟩ ∧
      fieldValues "annotations.limit.max" (testExporter.fieldsSet stampingDebug 0 r)
        = [.str "marshaling error: json: unsupported value: +Inf"] ∧
      (⟨"annotations.limit.max", .iface (.float64 posInf)⟩ : Field) ∉ r.fields :=
  ⟨rfl, _, rfl, by decide, by decide⟩

/-- C8, amended: on the record it writes (the event of `log()` being
live), `ExportSpan` sets for every annotation `a` of the span and every entry
`(k, v)` of its attribute map the field `annotations.` ++ a.Message ++ `.` ++
k: to `v` itself when `v` is a boolean, a string, an integer or a float other
than NaN and the infinities, and to the text of the marshaling error when `v`
is such a float.  The fields whose name starts with `annotations.` are exactly
these, annotation after annotation in sequence order; an annotation whose map
is nil or has no entry adds no field, so the call does the same without it. -/
theorem ExportSpan_annotation_fields (e : Exporter) (Debug : EventFn) (vd : trace.SpanData)
    (n : Nat) (hlive : (e.log Debug n).isSome = true) :
    (∃ r, ExportSpan e Debug vd n = ⟨[r], false, n + 1⟩ ∧
      (∀ a ∈ vd.Annotations, ∀ kvs, a.Attributes = some kvs →
        ∀ k v, (k, v) ∈ kvs → v.supported = true →
        (⟨"annotations." ++ a.Message ++ "." ++ k, .iface v⟩ : Field)
          ∈ e.fieldsSet Debug n r) ∧
      (∀ a ∈ vd.Annotations, ∀ kvs, a.Attributes = some kvs →
        ∀ k f text, (k, Any.float64 f) ∈ kvs → f.unsupported = some text →
        (⟨"annotations." ++ a.Message ++ "." ++ k,
          .str ("marshaling error: json: unsupported value: " ++ text)⟩ : Field)
          ∈ e.fieldsSet Debug n r) ∧
      (e.fieldsSet Debug n r).filter (keyStartsWith "annotations.")
        = vd.Annotations.flatMap (fun a => (a.Attributes.getD []).map
            fun kv => ⟨"annotations." ++ a.Message ++ "." ++ kv.1, AppendInterface kv.2⟩)) ∧
    (∀ (a : trace.Annotation) (l : EventPtr), a.Attributes = none ∨ a.Attributes = some [] →
      ExportSpan.annotationFields a l = l) ∧
    (∀ (a : trace.Annotation) (before after : List trace.Annotation),
      a.Attributes = none ∨ a.Attributes = some [] → vd.Annotations = before ++ a :: after →
      ExportSpan e Debug vd n
        = ExportSpan e Debug { vd with Annotations := before ++ after } n) := by
  obtain ⟨r, hr, _, hset⟩ := ExportSpan.of_live e Debug vd n hlive
  have hmem : ∀ a ∈ vd.Annotations, ∀ kvs, a.Attributes = some kvs → ∀ k v, (k, v) ∈ kvs →
      (⟨"annotations." ++ a.Message ++ "." ++ k, AppendInterface v⟩ : Field)
        ∈ e.fieldsSet Debug n r := by
    intro a ha kvs hkvs k v hkv
    rw [hset]
    apply List.mem_append_right
    apply List.mem_append_left
    refine List.mem_flatMap.mpr ⟨a, ha, ?_⟩
    simp only [ExportSpan.annotationFieldsOf, hkvs, trace.Attributes.range, Option.getD_some]
    exact List.mem_map.mpr ⟨(k, v), hkv, rfl⟩
  have hempty : ∀ a : trace.Annotation, a.Attributes = none ∨ a.Attributes = some [] →
      ExportSpan.annotationFieldsOf a = [] := by
    intro a ha
    rcases ha with h | h <;> simp [ExportSpan.annotationFieldsOf, h, trace.Attributes.range]
  refine ⟨⟨r, hr, ?_, ?_, ?_⟩, ?_, ?_⟩
  · intro a ha kvs hkvs k v hkv hsup
    rw [← AppendInterface_of_supported v hsup]
    exact hmem a ha kvs hkvs k v hkv
  · intro a ha kvs hkvs k f text hkv hbad
    have := hmem a ha kvs hkvs k (.float64 f) hkv
    simpa [AppendInterface, hbad] using this
  · rw [hset, (ExportSpan.filter_loops vd).2]
    rfl
  · intro a l ha
    rw [ExportSpan.annotationFields_eq, hempty a ha, EventPtr.append_nil]
  · intro a before after ha hsplit
    rw [ExportSpan.eq_record, ExportSpan.eq_record, hsplit]
    simp [ExportSpan.fixedFields, ExportSpan.attributeFields, hempty a ha]

/-- C8, amended, at a span with two annotations of two attributes each. -/
theorem ExportSpan_annotation_fields_witness :
    childSpan.Annotations
      = [⟨⟨11⟩, "cache", some [("hit", .bool true), ("size", .int64 42)]⟩,
          ⟨⟨12⟩, "db", some [("query", .string "select"),
            ("cost", .float64 ⟨4607182418800017408⟩)]⟩] ∧
    (testExporter.log stampingDebug 0).isSome = true ∧
    ∃ r, ExportSpan testExporter stampingDebug childSpan 0 = ⟨[r], false, 1⟩ ∧
      (testExporter.fieldsSet stampingDebug 0 r).filter (keyStartsWith "annotations.")
        = [⟨"annotations.cache.hit", .iface (.bool true)⟩,
            ⟨"annotations.cache.size", .iface (.int64 42)⟩,
            ⟨"annotations.db.query", .iface (.string "select")⟩,
            ⟨"annotations.db.cost", .iface (.float64 ⟨4607182418800017408⟩)⟩] := by
  obtain ⟨⟨r, hr, _, _, hfilter⟩, _, _⟩ :=
    ExportSpan_annotation_fields testExporter stampingDebug childSpan 0 rfl
  exact ⟨rfl, rfl, r, hr, hfilter⟩

/-- C9: on the record it writes (the event of `log()` being live),
`ExportSpan` sets `elapsed`, once, to the duration
`EndTime.Sub(StartTime)`: the difference of the two times whenever it fits a
`Duration`, and strictly positive whenever the end is after the start. -/
theorem ExportSpan_elapsed (e : Exporter) (Debug : EventFn)
    (vd : trace.SpanData) (n : Nat) (hlive : (e.log Debug n).isSome = true) :
    ∃ r, ExportSpan e Debug vd n = ⟨[r], false, n + 1⟩ ∧
      fieldValues "elapsed" (e.fieldsSet Debug n r) = [.dur (vd.EndTime.Sub vd.StartTime)] ∧
      (time.minDuration ≤ vd.EndTime.nanos - vd.StartTime.nanos ∧
          vd.EndTime.nanos - vd.StartTime.nanos ≤ time.maxDuration →
        vd.EndTime.Sub vd.StartTime = vd.EndTime.nanos - vd.StartTime.nanos) ∧
      (vd.EndTime.After vd.StartTime → 0 < vd.EndTime.Sub vd.StartTime) := by
  obtain ⟨r, hr, _, h1⟩ := ExportSpan.fieldValues_fixed e Debug vd n hlive "elapsed" (by decide)
  refine ⟨r, hr, ?_, time.Sub_exact _ _, time.Sub_pos _ _⟩
  rw [h1]; simp only [ExportSpan.fixedFields]; split <;> simp [fieldValues]

/-- C9, at the span of `TestTrace`, which ends 25 nanoseconds after it
starts. -/
theorem ExportSpan_elapsed_witness :
    (testExporter.log stampingDebug 0).isSome = true ∧
    ∃ r, ExportSpan testExporter stampingDebug fooSpan 0 = ⟨[r], false, 1⟩ ∧
      fieldValues "elapsed" (testExporter.fieldsSet stampingDebug 0 r) = [.dur 25] := by
  obtain ⟨r, hr, hval, _⟩ := ExportSpan_elapsed testExporter stampingDebug fooSpan 0 rfl
  exact ⟨rfl, r, hr, hval⟩

/-- C15, refuted at a span with three annotations: the first two share the
message `a` and the key `b.c`, the third has the message `a.b` and the key
`c`.  The record holds three fields named `annotations.a.b.c`, and the last
one carries the value of the third annotation, not that of the later of the
two that share a message. -/
theorem ExportSpan_later_same_message_not_last :
    collisionSpan.Annotations.map (fun a => (a.Message, a.Attributes))
      = [("a", some [("b.c", .int64 1)]), ("a", some [("b.c", .int64 2)]),
          ("a.b", some [("c", .int64 3)])] ∧
    ∃ r, ExportSpan testExporter stampingDebug collisionSpan 0 = ⟨[r], false, 1⟩ ∧
      fieldValues "annotations.a.b.c" (testExporter.fieldsSet stampingDebug 0 r)
        = [.iface (.int64 1), .iface (.int64 2), .iface (.int64 3)] ∧
      lastFieldValue "annotations.a.b.c" (testExporter.fieldsSet stampingDebug 0 r)
        = some (.iface (.int64 3)) ∧
      lastFieldValue "annotations.a.b.c" (testExporter.fieldsSet stampingDebug 0 r)
        ≠ some (.iface (.int64 2)) :=
  ⟨by decide, _, rfl, by decide, by decide, by decide⟩

/-- C15, amended: on the record `ExportSpan` writes (the event of `log()`
being live), when an annotation carries the key `k` with the value `v` and no
annotation after it in sequence order synthesizes the field name
`annotations.` ++ its message ++ `.` ++ k, the last field of that name carries
what `Event.Interface` stores for `v`, which is `v` itself unless `v` is a NaN
or an infinity, whatever earlier annotations wrote under the name. -/
theorem ExportSpan_last_write_wins (e : Exporter) (Debug : EventFn) (vd : trace.SpanData)
    (n : Nat) (before after : List trace.Annotation) (a : trace.Annotation) (k : String)
    (v : Any)
    (hlive : (e.log Debug n).isSome = true)
    (hsplit : vd.Annotations = before ++ a :: after)
    (hkv : (k, v) ∈ a.Attributes.getD [])
    (hnd : a.Attributes.keysDistinct)
    (hlast : ∀ b ∈ after, ∀ kv ∈ b.Attributes.getD [],
      "annotations." ++ b.Message ++ "." ++ kv.1 ≠ "annotations." ++ a.Message ++ "." ++ k) :
    ∃ r, ExportSpan e Debug vd n = ⟨[r], false, n + 1⟩ ∧
      lastFieldValue ("annotations." ++ a.Message ++ "." ++ k) (e.fieldsSet Debug n r)
        = some (AppendInterface v) ∧
      (v.supported = true →
        lastFieldValue ("annotations." ++ a.Message ++ "." ++ k) (e.fieldsSet Debug n r)
          = some (.iface v)) := by
  have hpre : "annotations.".data.isPrefixOf
      ("annotations." ++ a.Message ++ "." ++ k).data = true := by
    simp only [String.data_append, List.append_assoc]
    exact List.isPrefixOf_iff_prefix.mpr (List.prefix_append _ _)
  have hfixed := fieldValues_eq_nil_of_keyStartsWith "annotations." _ _
    (fun f hf => (ExportSpan.fixed_not_loop_named vd f hf).2) hpre
  have hattr := fieldValues_eq_nil_of_keyStartsWith "annotations." _ _
    (fun f hf => (ExportSpan.attribute_keys vd f hf).2) hpre
  have hafter : fieldValues ("annotations." ++ a.Message ++ "." ++ k)
      (after.flatMap ExportSpan.annotationFieldsOf) = [] := by
    apply fieldValues_flatMap
    intro b hb
    apply fieldValues_eq_nil
    intro f hf heq
    obtain ⟨kv, hkv', rfl⟩ := List.mem_map.mp hf
    exact hlast b hb kv hkv' heq
  have hself : fieldValues ("annotations." ++ a.Message ++ "." ++ k)
      (ExportSpan.annotationFieldsOf a) = [AppendInterface v] :=
    fieldValues_of_entries ("annotations." ++ a.Message ++ ".") _ hnd k v hkv
  obtain ⟨r, hr, _, hset⟩ := ExportSpan.of_live e Debug vd n hlive
  have hval : lastFieldValue ("annotations." ++ a.Message ++ "." ++ k)
      (e.fieldsSet Debug n r) = some (AppendInterface v) := by
    rw [hset, hsplit]
    simp only [lastFieldValue, fieldValues_append, List.flatMap_append, List.flatMap_cons,
      hfixed, hattr, hafter, hself, List.nil_append, List.append_nil]
    simp
  exact ⟨r, hr, hval, fun hsup => by rw [hval, AppendInterface_of_supported v hsup]⟩

/-- C15, amended, at a span with two annotations `retry` that both carry
the key `attempt`: the later value is the last under the name. -/
theorem ExportSpan_last_write_wins_witness :
    ∃ r, ExportSpan testExporter stampingDebug retrySpan 0 = ⟨[r], false, 1⟩ ∧
      lastFieldValue "annotations.retry.attempt" (testExporter.fieldsSet stampingDebug 0 r)
        = some (.iface (.int64 2)) := by
  obtain ⟨r, hr, hval, _⟩ :=
    ExportSpan_last_write_wins testExporter stampingDebug retrySpan 0
      [⟨⟨11⟩, "retry", some [("attempt", .int64 1)]⟩] []
      ⟨⟨12⟩, "retry", some [("attempt", .int64 2)]⟩ "attempt" (.int64 2) rfl rfl
      (by decide) (by decide : (["attempt"] : List String).Nodup)
      (fun b hb => absurd hb (List.not_mem_nil b))
  exact ⟨r, hr, hval⟩

/-- C16: for a span whose attribute map is nil or empty and whose
annotations, if any, all have a nil or empty attribute map, `ExportSpan`
returns after writing one record (the event of `log()` being live) on which
it sets no field named `attributes.`... or `annotations.`...: only `traceId`,
`spanId`, `parentSpanId` unless the parent identifier is zero, `span`,
`statusMessage`, `statusCode` and `elapsed`, in this order. -/
theorem ExportSpan_nil_maps (e : Exporter) (Debug : EventFn) (vd : trace.SpanData) (n : Nat)
    (hlive : (e.log Debug n).isSome = true)
    (hattr : vd.Attributes = none ∨ vd.Attributes = some [])
    (hann : ∀ a ∈ vd.Annotations, a.Attributes = none ∨ a.Attributes = some []) :
    ∃ r, ExportSpan e Debug vd n = ⟨[r], false, n + 1⟩ ∧
      (e.fieldsSet Debug n r).filter (keyStartsWith "attributes.") = [] ∧
      (e.fieldsSet Debug n r).filter (keyStartsWith "annotations.") = [] ∧
      (e.fieldsSet Debug n r).map (fun f => f.key)
        = ["traceId", "spanId"]
          ++ (if vd.ParentSpanID.bytes.all (fun b => b == 0) then [] else ["parentSpanId"])
          ++ ["span", "statusMessage", "statusCode", "elapsed"] := by
  have hattrs : ExportSpan.attributeFields vd = [] := by
    rcases hattr with h | h <;> simp [ExportSpan.attributeFields, h, trace.Attributes.range]
  have hanns : vd.Annotations.flatMap ExportSpan.annotationFieldsOf = [] := by
    rw [List.flatMap_eq_nil_iff]
    intro a ha
    rcases hann a ha with h | h <;>
      simp [ExportSpan.annotationFieldsOf, h, trace.Attributes.range]
  have hloops := ExportSpan.filter_loops vd
  rw [hattrs, hanns] at hloops
  obtain ⟨r, hr, _, hset⟩ := ExportSpan.of_live e Debug vd n hlive
  rw [hattrs, hanns] at hset
  refine ⟨r, hr, ?_, ?_, ?_⟩
  · rw [hset]; exact hloops.1
  · rw [hset]; exact hloops.2
  · rw [hset]
    simp only [ExportSpan.fixedFields, reZero.MatchString_SpanID, List.append_nil]
    cases vd.ParentSpanID.bytes.all (fun b => b == 0) <;> simp

/-- C16, at the span with a nil attribute map, an annotation with a nil map
and one with an empty map, and a zero parent identifier. -/
theorem ExportSpan_nil_maps_witness :
    ∃ r, ExportSpan testExporter stampingDebug bareSpan 0 = ⟨[r], false, 1⟩ ∧
      (testExporter.fieldsSet stampingDebug 0 r).filter (keyStartsWith "attributes.") = [] ∧
      (testExporter.fieldsSet stampingDebug 0 r).filter (keyStartsWith "annotations.") = [] ∧
      (testExporter.fieldsSet stampingDebug 0 r).map (fun f => f.key)
        = ["traceId", "spanId", "span", "statusMessage", "statusCode", "elapsed"] :=
  ExportSpan_nil_maps testExporter stampingDebug bareSpan 0 rfl (Or.inl rfl) (by decide)

/-- C18: the fields `ExportSpan` sets on the record it writes are the fixed
ones, then those of the annotations, then those of the attributes; a name
synthesized for an attribute or for an annotation attribute is never one of
the seven fixed names, and a name synthesized for an attribute is never one
synthesized for an annotation attribute, whatever the keys and the
messages. -/
theorem ExportSpan_namespaces_disjoint (e : Exporter) (Debug : EventFn)
    (vd : trace.SpanData) (n : Nat) :
    ((e.log Debug n).isSome = true →
      ∃ r, ExportSpan e Debug vd n = ⟨[r], false, n + 1⟩ ∧
        e.fieldsSet Debug n r = ExportSpan.fixedFields vd
          ++ (vd.Annotations.flatMap ExportSpan.annotationFieldsOf
          ++ ExportSpan.attributeFields vd)) ∧
    (∀ f ∈ ExportSpan.fixedFields vd, f.key ∈ fixedNames) ∧
    (∀ f ∈ vd.Annotations.flatMap ExportSpan.annotationFieldsOf,
      f.key ∉ fixedNames ∧ ∀ g ∈ ExportSpan.attributeFields vd, g.key ≠ f.key) ∧
    (∀ g ∈ ExportSpan.attributeFields vd, g.key ∉ fixedNames) ∧
    (∀ m k : String, "annotations." ++ m ++ "." ++ k ∉ fixedNames) ∧
    (∀ k : String, "attributes." ++ k ∉ fixedNames) ∧
    (∀ m k k' : String, "attributes." ++ k' ≠ "annotations." ++ m ++ "." ++ k) := by
  have hann : ∀ m k : String, "annotations." ++ m ++ "." ++ k ∉ fixedNames :=
    fun m k hmem => fixedNames_head _ hmem (annotation_name_head m k)
  have hattr : ∀ k : String, "attributes." ++ k ∉ fixedNames :=
    fun k hmem => fixedNames_head _ hmem (attribute_name_head k)
  refine ⟨fun hlive => ?_, ExportSpan.fixed_keys vd, ?_, ?_, hann, hattr,
    attribute_name_ne_annotation_name⟩
  · obtain ⟨r, hr, _, hset⟩ := ExportSpan.of_live e Debug vd n hlive
    exact ⟨r, hr, hset⟩
  · intro f hf
    obtain ⟨item, _, hitem⟩ := List.mem_flatMap.mp hf
    obtain ⟨kv, _, rfl⟩ := List.mem_map.mp hitem
    refine ⟨hann _ _, ?_⟩
    intro g hg
    obtain ⟨kv', _, rfl⟩ := List.mem_map.mp hg
    exact attribute_name_ne_annotation_name _ _ _
  · intro g hg
    obtain ⟨kv, _, rfl⟩ := List.mem_map.mp hg
    exact hattr _

/-- C19: two annotations with different messages and different keys can get
one field name: the message `a.b` with the key `c` and the message `a` with
the key `b.c` both give `annotations.a.b.c`, and so does every pair `m.k`
with `k2` and `m` with `k.k2`. -/
theorem ExportSpan_annotation_names_collide :
    ("a.b" : String) ≠ "a" ∧ ("c" : String) ≠ "b.c" ∧
    ExportSpan.annotationFields ⟨⟨0⟩, "a.b", some [("c", .int64 1)]⟩ (some ⟨[]⟩)
      = some ⟨[⟨"annotations.a.b.c", .iface (.int64 1)⟩]⟩ ∧
    ExportSpan.annotationFields ⟨⟨0⟩, "a", some [("b.c", .int64 2)]⟩ (some ⟨[]⟩)
      = some ⟨[⟨"annotations.a.b.c", .iface (.int64 2)⟩]⟩ ∧
    (∀ (m k k2 : String) (v : Any) (t : time.Time) (ev : Event),
      ((ExportSpan.annotationFields ⟨t, m ++ "." ++ k, some [(k2, v)]⟩ (some ev)).map
          fun l => l.fields.map fun f => f.key)
        = (ExportSpan.annotationFields ⟨t, m, some [(k ++ "." ++ k2, v)]⟩ (some ev)).map
          fun l => l.fields.map fun f => f.key) := by
  refine ⟨by decide, by decide, by decide, by decide, ?_⟩
  intro m k k2 v t ev
  simp only [ExportSpan.annotationFields_eq, ExportSpan.annotationFieldsOf,
    trace.Attributes.range, Option.getD_some, List.map_cons, List.map_nil, EventPtr.append,
    Option.map_some', List.map_append, Option.some.injEq]
  congr 2
  apply String.ext
  simp only [String.data_append, List.append_assoc]

/-! ## Claims on the binding -/

/-- C13, refuted: the default logger returns no event when debug is
disabled, and in a snapshot of two rows whose first row holds a nil payload
`ExportView` calls `log()` once, not twice. -/
theorem ExportView_fewer_calls_than_rows :
    (New none).log (fun _ => none) 0 = none ∧
    nilThenUnsetViewData.Rows.length = 2 ∧
    ExportView testExporter stampingDebug nilThenUnsetViewData 0 = ⟨[], true, 1⟩ := by
  decide

/-- C13, amended: `log()` of `New(f)` returns what the call of `f` returns
when a factory is given and what `log.Debug()` returns when none is, a nil
event included.  `ExportView` calls `log()` once for every row it visits:
every row of a well-formed snapshot and, of another, the rows up to and
including the first on which the body panics; the records of a well-formed
snapshot are, row after row, the event of the row's own call extended by the
fields of that row, and nothing for a row whose event is nil.  `ExportSpan`
calls `log()` once and writes the event of that call extended by the fields of
the span, or nothing when it is nil. -/
theorem Exporter_log_binding (f : EventFn) (e : Exporter) (Debug : EventFn)
    (vd : view.Data) (sd : trace.SpanData) (n : Nat) :
    (New (some f)).log Debug n = f n ∧
    (New none).log Debug n = Debug n ∧
    (vd.wellFormed → (ExportView e Debug vd n).calls = n + vd.Rows.length) ∧
    (¬ vd.wellFormed → (ExportView e Debug vd n).calls
      = n + (vd.Rows.takeWhile fun row => !ExportView.panics vd row).length + 1) ∧
    (vd.wellFormed → (ExportView e Debug vd n).records
      = (vd.Rows.enumFrom n).flatMap fun p =>
          match vd.View, p.2, e.log Debug p.1 with
          | some v, some row, some ev =>
            [⟨ev.fields ++ ExportView.rowFields v.Name vd.End row, "metric"⟩]
          | _, _, _ => []) ∧
    (ExportSpan e Debug sd n).calls = n + 1 ∧
    (ExportSpan e Debug sd n).records
      = match e.log Debug n with
        | some ev =>
          [⟨ev.fields ++ (ExportSpan.fixedFields sd
            ++ (sd.Annotations.flatMap ExportSpan.annotationFieldsOf
            ++ ExportSpan.attributeFields sd)), "trace"⟩]
        | none => [] := by
  refine ⟨rfl, rfl, ?_, ?_, ?_, ?_, ?_⟩
  · intro h
    rw [ExportView.eq_written,
      ExportView.visited_of_no_panic vd vd.Rows (ExportView.panics_of_wellFormed vd h)]
  · intro h
    have hany : vd.Rows.any (ExportView.panics vd) = true := by
      rw [ExportView.wellFormed_iff] at h
      simp only [not_forall] at h
      obtain ⟨row, hrow, hp⟩ := h
      rw [List.any_eq_true]
      exact ⟨row, hrow, by simpa using hp⟩
    rw [ExportView.eq_written, ExportView.visited_eq, hany]
    simp only [if_true]
    omega
  · intro h
    rw [ExportView.eq_written,
      ExportView.written_eq_enumFrom e Debug vd vd.Rows n (ExportView.panics_of_wellFormed vd h)]
    refine congrArg (fun g => (vd.Rows.enumFrom n).flatMap g) ?_
    funext p
    simp only [ExportView.record]
    cases vd.View <;> cases p.2 <;> cases e.log Debug p.1 <;>
      simp [EventPtr.append, EventPtr.Msg]
  · rw [ExportSpan.eq_record]
  · rw [ExportSpan.eq_record]
    cases e.log Debug n <;> rfl

/-- C14, refuted: through the default logger, which stamps every event
with the time of its call, two calls on the span of `TestTrace` write records
that differ, and so do two calls on the snapshot of `TestMetrics`. -/
theorem Export_stamped_records_differ :
    (ExportSpan defaultExporter stampingDebug fooSpan 0).calls = 1 ∧
    (ExportSpan defaultExporter stampingDebug fooSpan 0).records
      ≠ (ExportSpan defaultExporter stampingDebug fooSpan 1).records ∧
    (ExportView defaultExporter stampingDebug nothingViewData 0).calls = 1 ∧
    (ExportView defaultExporter stampingDebug nothingViewData 0).records
      ≠ (ExportView defaultExporter stampingDebug nothingViewData 1).records := by
  decide

/-- C14, amended: the exporter keeps no state of its own.  Two calls of
`ExportSpan` on the same span, made at any two moments and whatever the order
in which each visits the maps, set the same fields with the same values: the
lists of fields set are permutations of each other and, the keys of a map
being distinct, every field name holds the same values in both; the records
are the same as a whole when `log()` returns the same event to both calls.
Two calls of `ExportView` on the same snapshot panic or return alike after the
same number of calls of `log()`, set the same fields on the record of each
row, and write the same records when `log()` returns the same events. -/
theorem Export_same_input_same_records (e : Exporter) (Debug : EventFn)
    (v w : trace.SpanData) (hsame : v.sameInput w) (hkeys : v.keysDistinct)
    (vd : view.Data) (n n' : Nat) :
    ((e.log Debug n).isSome = true → (e.log Debug n').isSome = true →
      ∃ r r', ExportSpan e Debug v n = ⟨[r], false, n + 1⟩ ∧
        ExportSpan e Debug w n' = ⟨[r'], false, n' + 1⟩ ∧
        r.message = r'.message ∧
        (e.fieldsSet Debug n r).Perm (e.fieldsSet Debug n' r') ∧
        (∀ key, fieldValues key (e.fieldsSet Debug n r)
          = fieldValues key (e.fieldsSet Debug n' r')) ∧
        (e.log Debug n = e.log Debug n' →
          r.fields.Perm r'.fields ∧
          ∀ key, fieldValues key r.fields = fieldValues key r'.fields)) ∧
    (e.log Debug n = e.log Debug n' →
      (ExportSpan e Debug v n).records = (ExportSpan e Debug v n').records) ∧
    (ExportView e Debug vd n).panicked = (ExportView e Debug vd n').panicked ∧
    (ExportView e Debug vd n).calls + n' = (ExportView e Debug vd n').calls + n ∧
    (vd.wellFormed → e.liveFor Debug n vd.Rows.length → e.liveFor Debug n' vd.Rows.length →
      ∀ (i : Nat) (r r' : Record), (ExportView e Debug vd n).records[i]? = some r →
        (ExportView e Debug vd n').records[i]? = some r' →
        r.message = r'.message ∧
        e.fieldsSet Debug (n + i) r = e.fieldsSet Debug (n' + i) r') ∧
    ((∀ j, j < vd.Rows.length → e.log Debug (n + j) = e.log Debug (n' + j)) →
      (ExportView e Debug vd n).records = (ExportView e Debug vd n').records) := by
  have hperm : (ExportSpan.fixedFields v
        ++ (v.Annotations.flatMap ExportSpan.annotationFieldsOf
        ++ ExportSpan.attributeFields v)).Perm
      (ExportSpan.fixedFields w
        ++ (w.Annotations.flatMap ExportSpan.annotationFieldsOf
        ++ ExportSpan.attributeFields w)) := by
    rw [ExportSpan.fixedFields_sameInput v w hsame]
    apply List.Perm.append_left
    exact (ExportSpan.annotations_sameInput _ _ hsame.2.2.2.2.2.2.2).1.append
      (List.Perm.map _ hsame.2.2.2.2.2.2.1)
  have hvals : ∀ key, fieldValues key (ExportSpan.fixedFields v
        ++ (v.Annotations.flatMap ExportSpan.annotationFieldsOf
        ++ ExportSpan.attributeFields v))
      = fieldValues key (ExportSpan.fixedFields w
        ++ (w.Annotations.flatMap ExportSpan.annotationFieldsOf
        ++ ExportSpan.attributeFields w)) := by
    intro key
    have hattr : fieldValues key (ExportSpan.attributeFields v)
        = fieldValues key (ExportSpan.attributeFields w) :=
      fieldValues_entries_perm "attributes." key _ _ hsame.2.2.2.2.2.2.1 hkeys.1
    simp only [fieldValues_append]
    rw [ExportSpan.fixedFields_sameInput v w hsame,
      (ExportSpan.annotations_sameInput _ _ hsame.2.2.2.2.2.2.2).2 hkeys.2 key, hattr]
  refine ⟨?_, ?_, ?_, ?_, ?_, ?_⟩
  · intro hl hl'
    obtain ⟨ev, hev⟩ := Option.isSome_iff_exists.mp hl
    obtain ⟨ev', hev'⟩ := Option.isSome_iff_exists.mp hl'
    refine ⟨⟨ev.fields ++ _, "trace"⟩, ⟨ev'.fields ++ _, "trace"⟩,
      by rw [ExportSpan.eq_record, hev]; rfl, by rw [ExportSpan.eq_record, hev']; rfl,
      rfl, ?_, ?_, ?_⟩
    · rw [Exporter.fieldsSet_of_log e Debug n ev hev,
        Exporter.fieldsSet_of_log e Debug n' ev' hev']
      exact hperm
    · intro key
      rw [Exporter.fieldsSet_of_log e Debug n ev hev,
        Exporter.fieldsSet_of_log e Debug n' ev' hev']
      exact hvals key
    · intro heq
      have hevs : ev = ev' := by
        rw [hev, hev'] at heq
        exact Option.some.inj heq
      subst hevs
      refine ⟨List.Perm.append_left _ hperm, fun key => ?_⟩
      rw [fieldValues_append key ev.fields, fieldValues_append key ev.fields, hvals key]
  · intro heq
    rw [ExportSpan.eq_record, ExportSpan.eq_record, heq]
  · rw [ExportView.eq_written, ExportView.eq_written]
  · rw [ExportView.eq_written, ExportView.eq_written]
    simp only
    omega
  · intro h hlive hlive' i r r' hr hr'
    have hi : i < vd.Rows.length := by
      have hlen := (ExportView.written_getElem e Debug vd vd.Rows n
        (ExportView.panics_of_wellFormed vd h) hlive).1
      rw [ExportView.eq_written] at hr
      have hlt : i < (ExportView.written e Debug vd vd.Rows n).length :=
        (List.getElem?_eq_some.mp hr).1
      omega
    obtain ⟨row, hrow⟩ : ∃ row, vd.Rows[i]? = some row :=
      ⟨vd.Rows[i], List.getElem?_eq_getElem hi⟩
    obtain ⟨s, v1, row1, _, hs, hv1, hrow1, _, hreq1, hset1⟩ :=
      ExportView.record_at e Debug vd n h hlive i row hrow
    obtain ⟨s', v2, row2, _, hs', hv2, hrow2, _, hreq2, hset2⟩ :=
      ExportView.record_at e Debug vd n' h hlive' i row hrow
    rw [hr] at hs
    rw [hr'] at hs'
    simp only [Option.some.injEq] at hs hs'
    subst hs hs'
    have hv : v1 = v2 := by rw [hv1] at hv2; exact Option.some.inj hv2
    have hrows : row1 = row2 := by rw [hrow1] at hrow2; exact Option.some.inj hrow2
    subst hv hrows
    refine ⟨?_, ?_⟩
    · rw [hreq1, hreq2]
    · rw [hset1, hset2]
  · intro heq
    rw [ExportView.eq_written, ExportView.eq_written]
    exact ExportView.written_congr_log e Debug vd vd.Rows n n' heq

/-- C14, amended, at a span with four attributes and two annotations of two
attributes each, every map visited in two orders, the second call made one
call of `log()` after the first, through the default logger that stamps its
events with the time. -/
theorem Export_same_input_same_records_witness :
    childSpan.sameInput childSpanReordered ∧ childSpan.keysDistinct ∧
    ∃ r r', ExportSpan defaultExporter stampingDebug childSpan 0 = ⟨[r], false, 1⟩ ∧
      ExportSpan defaultExporter stampingDebug childSpanReordered 1 = ⟨[r'], false, 2⟩ ∧
      r.message = r'.message ∧
      (defaultExporter.fieldsSet stampingDebug 0 r).Perm
        (defaultExporter.fieldsSet stampingDebug 1 r') ∧
      fieldValues "annotations.cache.size" (defaultExporter.fieldsSet stampingDebug 0 r)
        = fieldValues "annotations.cache.size" (defaultExporter.fieldsSet stampingDebug 1 r') :=
  have hsame : childSpan.sameInput childSpanReordered :=
    ⟨rfl, rfl, rfl, rfl, rfl, rfl, List.Perm.swap _ _ _,
      List.Forall₂.cons ⟨rfl, rfl, List.Perm.swap _ _ _⟩
        (List.Forall₂.cons ⟨rfl, rfl, List.Perm.swap _ _ _⟩ List.Forall₂.nil)⟩
  have hkeys : childSpan.keysDistinct :=
    ⟨(by decide : (["key1", "key2", "key3", "key4"] : List String).Nodup),
      (by decide : ∀ a ∈ childSpan.Annotations,
        ((a.Attributes.getD []).map Prod.fst).Nodup)⟩
  have h := (Export_same_input_same_records defaultExporter stampingDebug childSpan
    childSpanReordered hsame hkeys nothingViewData 0 1).1 rfl rfl
  ⟨hsame, hkeys, h.elim fun r hr => hr.elim fun r' hr' =>
    ⟨r, r', hr'.1, hr'.2.1, hr'.2.2.1, hr'.2.2.2.1, hr'.2.2.2.2.1 "annotations.cache.size"⟩⟩

end OcZeroExporter
